import Mathlib

set_option linter.unusedSectionVars false

/-!
BreadthFixedMap: a shallow embedding of `src/breadth_fixed_map.hpp`.

The C++ class keeps its nodes on the heap and links them with raw pointers.
Here the heap is the list `store` of every `Node` object created by `new`
(nothing is deleted before the destructor runs), the address of a node is its
index in that list, and a pointer is an `Option Nat` (`none` is the null
pointer).  `std::unordered_map` is an association list with unique keys.
`size_t` arithmetic is arithmetic modulo `2 ^ 64`.

Allocation with `new` is taken to succeed.  `get` on an absent key (a failed
`assert`) yields `none`.  The `while` loop of `add` is run with a bound on the
number of iterations; `none` means the bound was not enough.
-/

namespace ys

/-- The modulus of `size_t` arithmetic, `2 ^ 64`. -/
def SIZE_MOD : Nat := 18446744073709551616

/-- The class `Node<K, V>` (lines 31-53): key, value and the two links. -/
structure Node (K V : Type) where
  key_ : K
  value_ : V
  previous_ : Option Nat
  next_ : Option Nat
deriving DecidableEq, Repr

/-- The data members of `BreadthFixedMap` (lines 55-60) together with the heap
`store` holding every node allocated so far. -/
structure BreadthFixedMap (K V : Type) where
  store : List (Node K V)
  table_ : List (K × Nat)
  head_ : Option Nat
  tail_ : Option Nat
  buffer_ : Option Nat
  length_ : Nat
  MAX_ : Nat
deriving DecidableEq, Repr

section Heap

variable {K V : Type}

/-- Read `p->next_`.  An address outside the heap reads as null; reachable
states never hold such an address (see `Valid`). -/
def next_of (h : List (Node K V)) (p : Nat) : Option Nat :=
  match h[p]? with
  | some n => n.next_
  | none => none

/-- Read `p->previous_`. -/
def previous_of (h : List (Node K V)) (p : Nat) : Option Nat :=
  match h[p]? with
  | some n => n.previous_
  | none => none

/-- Overwrite fields of the node at address `p`.  A write outside the heap
changes nothing. -/
def write (h : List (Node K V)) (p : Nat) (f : Node K V → Node K V) : List (Node K V) :=
  match h[p]? with
  | some n => h.set p (f n)
  | none => h

/-- The assignment `p->next_ = v`. -/
def set_next (h : List (Node K V)) (p : Nat) (v : Option Nat) : List (Node K V) :=
  write h p (fun n => { n with next_ := v })

/-- The assignment `p->previous_ = v`. -/
def set_previous (h : List (Node K V)) (p : Nat) (v : Option Nat) : List (Node K V) :=
  write h p (fun n => { n with previous_ := v })

end Heap

section Table

variable {K : Type} [DecidableEq K]

/-- The lookup `table_.find(key)`: the node stored under `key`, if any. -/
def table_find : List (K × Nat) → K → Option Nat
  | [], _ => none
  | (k, p) :: rest, key => if k = key then some p else table_find rest key

/-- The call `table_.insert(pair(key, node))`: an existing key is kept. -/
def table_insert (t : List (K × Nat)) (key : K) (node : Nat) : List (K × Nat) :=
  match table_find t key with
  | some _ => t
  | none => t ++ [(key, node)]

/-- The call `table_.erase(key)`. -/
def table_erase (t : List (K × Nat)) (key : K) : List (K × Nat) :=
  t.filter (fun e => decide (e.1 ≠ key))

end Table

namespace BreadthFixedMap

variable {K V : Type} [DecidableEq K]

/-- The constructor (lines 160-165). -/
def mk_empty (max : Nat) : BreadthFixedMap K V :=
  { store := [], table_ := [], head_ := none, tail_ := none, buffer_ := none,
    length_ := 0, MAX_ := max }

/-- The private method `new_node` (lines 68-95): reuse the first node of the
free chain `buffer_` if there is one, else allocate. Returns the node and the
new state. -/
def new_node (s : BreadthFixedMap K V) (key : K) (value : V) :
    Nat × BreadthFixedMap K V :=
  let r : Nat × BreadthFixedMap K V :=
    (match s.buffer_ with
    | some node =>
      let s1 := { s with buffer_ := next_of s.store node }
      let s2 :=
        (match s1.buffer_ with
        | some b => { s1 with store := set_previous s1.store b none }
        | none => s1)
      let h := write s2.store node (fun n => { n with key_ := key, value_ := value })
      (node, { s2 with store := h })
    | none =>
      (s.store.length, { s with store := s.store ++ [⟨key, value, none, none⟩] }))
  let node := r.1
  let s3 := r.2
  (node, { s3 with
    length_ := (s3.length_ + 1) % SIZE_MOD,
    store := set_previous (set_next s3.store node none) node none })

/-- The private method `pick_up_node` (lines 101-121): unlink `node`. -/
def pick_up_node (s : BreadthFixedMap K V) (node : Nat) : BreadthFixedMap K V :=
  let s1 :=
    (match previous_of s.store node with
    | some p => { s with store := set_next s.store p (next_of s.store node) }
    | none =>
      let s0 := { s with head_ := next_of s.store node }
      match s0.head_ with
      | some h => { s0 with store := set_previous s0.store h none }
      | none => s0)
  let s2 :=
    (match next_of s1.store node with
    | some n => { s1 with store := set_previous s1.store n (previous_of s1.store node) }
    | none =>
      let s0 := { s1 with tail_ := previous_of s1.store node }
      match s0.tail_ with
      | some t => { s0 with store := set_next s0.store t none }
      | none => s0)
  { s2 with store := set_previous (set_next s2.store node none) node none }

/-- The private method `delete_node` (lines 128-139): unlink `node` and push
it on the free chain. -/
def delete_node (s : BreadthFixedMap K V) (node : Nat) : BreadthFixedMap K V :=
  let s1 := pick_up_node s node
  let s2 :=
    (match s1.buffer_ with
    | some b => { s1 with store := set_previous s1.store b (some node) }
    | none => s1)
  let s3 := { s2 with store := set_next s2.store node s2.buffer_ }
  { s3 with buffer_ := some node, length_ := (s3.length_ + SIZE_MOD - 1) % SIZE_MOD }

/-- The private overload `remove(Node*)` (lines 145-152). -/
def remove_node (s : BreadthFixedMap K V) (node : Nat) : BreadthFixedMap K V :=
  let s1 := delete_node s node
  match s1.store[node]? with
  | some n => { s1 with table_ := table_erase s1.table_ n.key_ }
  | none => s1

/-- The method `size` (lines 191-195). -/
def size (s : BreadthFixedMap K V) : Nat := s.length_

/-- The method `find` (lines 202-206). -/
def find (s : BreadthFixedMap K V) (key : K) : Bool :=
  (table_find s.table_ key).isSome

/-- Lines 225-227 of `get`, which are also lines 274-276 of `add`: put `node`
in front of `head_`. -/
def link_head (s : BreadthFixedMap K V) (node : Nat) : BreadthFixedMap K V :=
  let s1 := { s with store := set_next s.store node s.head_ }
  let s2 :=
    (match s1.head_ with
    | some h => { s1 with store := set_previous s1.store h (some node) }
    | none => s1)
  { s2 with head_ := some node }

/-- The method `get` (lines 214-230).  `none` when the key is absent (the
`assert` fails). -/
def get (s : BreadthFixedMap K V) (key : K) : Option (V × BreadthFixedMap K V) :=
  match table_find s.table_ key with
  | none => none
  | some node =>
    let s1 := link_head (pick_up_node s node) node
    match s1.store[node]? with
    | some n => some (n.value_, s1)
    | none => none

/-- The public method `remove(const KEY&)` (lines 238-247). -/
def remove (s : BreadthFixedMap K V) (key : K) : BreadthFixedMap K V :=
  match table_find s.table_ key with
  | none => s
  | some node => remove_node s node

/-- The loop `while (MAX_ <= length_ && tail_) remove(tail_);` (line 269),
allowed at most `fuel` iterations. -/
def evict_loop : Nat → BreadthFixedMap K V → Option (BreadthFixedMap K V)
  | 0, s =>
    if s.MAX_ ≤ s.length_ then
      match s.tail_ with
      | some _ => none
      | none => some s
    else some s
  | fuel + 1, s =>
    if s.MAX_ ≤ s.length_ then
      match s.tail_ with
      | some t => evict_loop fuel (remove_node s t)
      | none => some s
    else some s

/-- Line 277 of `add`: `if (!tail_) tail_ = node;`. -/
def fix_tail (s : BreadthFixedMap K V) (node : Nat) : BreadthFixedMap K V :=
  match s.tail_ with
  | some _ => s
  | none => { s with tail_ := some node }

/-- The method `add` (lines 255-278); the eviction loop gets `fuel`
iterations. -/
def add (fuel : Nat) (s : BreadthFixedMap K V) (key : K) (value : V) :
    Option (BreadthFixedMap K V) :=
  match table_find s.table_ key with
  | some node =>
    let s1 := pick_up_node s node
    let s2 := { s1 with store := write s1.store node (fun n => { n with value_ := value }) }
    some (fix_tail (link_head s2 node) node)
  | none =>
    match evict_loop fuel s with
    | none => none
    | some s1 =>
      let r := new_node s1 key value
      let s2 := { r.2 with table_ := table_insert r.2.table_ key r.1 }
      some (fix_tail (link_head s2 r.1) r.1)

end BreadthFixedMap

/-- One public call on the container. -/
inductive Call (K V : Type) where
  | add (key : K) (value : V)
  | get (key : K)
  | remove (key : K)
  | find (key : K)
  | size
deriving DecidableEq, Repr

namespace BreadthFixedMap

variable {K V : Type} [DecidableEq K]

/-- The state after one public call; `none` when `get` is called on an absent
key or the eviction loop needs more than `fuel` iterations. -/
def step (fuel : Nat) (s : BreadthFixedMap K V) : Call K V → Option (BreadthFixedMap K V)
  | Call.add key value => add fuel s key value
  | Call.get key => (get s key).map Prod.snd
  | Call.remove key => some (remove s key)
  | Call.find _ => some s
  | Call.size => some s

/-- The state after a sequence of public calls. -/
def run (fuel : Nat) : BreadthFixedMap K V → List (Call K V) → Option (BreadthFixedMap K V)
  | s, [] => some s
  | s, c :: cs =>
    match step fuel s c with
    | none => none
    | some s1 => run fuel s1 cs

end BreadthFixedMap

/-! ## Auxiliary definitions: parts of the methods, and invariants -/

section HeapPredicates

variable {K V : Type}

/-- Both links of a node point into a heap of `len` nodes. -/
def LinksOK (len : Nat) (n : Node K V) : Prop :=
  (∀ p, n.previous_ = some p → p < len) ∧ (∀ p, n.next_ = some p → p < len)

/-- Every link stored in the heap is null or the address of a node. -/
def HeapOK (h : List (Node K V)) : Prop :=
  ∀ (q : Nat) (n : Node K V), h[q]? = some n → LinksOK h.length n

/-- A pointer is null or the address of a node of the heap. -/
def PtrOK (len : Nat) (o : Option Nat) : Prop := ∀ p, o = some p → p < len

end HeapPredicates

namespace BreadthFixedMap

variable {K V : Type} [DecidableEq K]

/-- Every pointer held by the container is null or the address of an
allocated node. -/
structure Valid (s : BreadthFixedMap K V) : Prop where
  heap : HeapOK s.store
  head : PtrOK s.store.length s.head_
  tail : PtrOK s.store.length s.tail_
  buffer : PtrOK s.store.length s.buffer_
  table : ∀ (k : K) (p : Nat), (k, p) ∈ s.table_ → p < s.store.length

/-- The first `if` statement of `pick_up_node` (lines 104-110). -/
def pick_up_front (s : BreadthFixedMap K V) (node : Nat) : BreadthFixedMap K V :=
  match previous_of s.store node with
  | some p => { s with store := set_next s.store p (next_of s.store node) }
  | none =>
    let s0 := { s with head_ := next_of s.store node }
    match s0.head_ with
    | some h => { s0 with store := set_previous s0.store h none }
    | none => s0

/-- The second `if` statement of `pick_up_node` (lines 112-118). -/
def pick_up_back (s1 : BreadthFixedMap K V) (node : Nat) : BreadthFixedMap K V :=
  match next_of s1.store node with
  | some n => { s1 with store := set_previous s1.store n (previous_of s1.store node) }
  | none =>
    let s0 := { s1 with tail_ := previous_of s1.store node }
    match s0.tail_ with
    | some t => { s0 with store := set_next s0.store t none }
    | none => s0

/-- The last statement of `pick_up_node` (line 120). -/
def clear_links (s2 : BreadthFixedMap K V) (node : Nat) : BreadthFixedMap K V :=
  { s2 with store := set_previous (set_next s2.store node none) node none }

/-- Lines 135-138 of `delete_node`: push the unlinked node on the free chain. -/
def push_free (s1 : BreadthFixedMap K V) (node : Nat) : BreadthFixedMap K V :=
  let s2 :=
    (match s1.buffer_ with
    | some b => { s1 with store := set_previous s1.store b (some node) }
    | none => s1)
  let s3 := { s2 with store := set_next s2.store node s2.buffer_ }
  { s3 with buffer_ := some node, length_ := (s3.length_ + SIZE_MOD - 1) % SIZE_MOD }

/-- The state `new_node` works on once it has a node: the reused first node of
the free chain, or a newly allocated one (lines 74-89). -/
def take_node (s : BreadthFixedMap K V) (key : K) (value : V) :
    Nat × BreadthFixedMap K V :=
  match s.buffer_ with
  | some node =>
    let s1 := { s with buffer_ := next_of s.store node }
    let s2 :=
      (match s1.buffer_ with
      | some b => { s1 with store := set_previous s1.store b none }
      | none => s1)
    let h := write s2.store node (fun n => { n with key_ := key, value_ := value })
    (node, { s2 with store := h })
  | none =>
    (s.store.length, { s with store := s.store ++ [⟨key, value, none, none⟩] })

/-- Lines 274-277 of `add`: put `node` at the head of the list. -/
def add_front (s : BreadthFixedMap K V) (node : Nat) : BreadthFixedMap K V :=
  fix_tail (link_head s node) node

/-- Read `p->value_`, if `p` is the address of a node. -/
def value_of (h : List (Node K V)) (p : Nat) : Option V :=
  (h[p]?).map Node.value_

/-- Read `p->key_`, if `p` is the address of a node. -/
def key_of (h : List (Node K V)) (p : Nat) : Option K :=
  (h[p]?).map Node.key_

/-- The number of nodes met when following `next_` links from `p`, looking at
no more than `fuel` nodes. -/
def chain_length (h : List (Node K V)) : Nat → Option Nat → Nat
  | 0, _ => 0
  | _ + 1, none => 0
  | fuel + 1, some p => 1 + chain_length h fuel (next_of h p)

/-- The reference model of claim C3, written from the words of the claim: a
most-recent-first list of at most `C` key/value pairs.  `add` of an absent key
to a full list drops the last pair, `add` and `get` of a present key move it to
the front, `remove` deletes it. -/
def ref_step (C : Nat) (m : List (K × V)) : Call K V → List (K × V)
  | Call.add k v =>
    if m.any (fun e => decide (e.1 = k)) then (k, v) :: m.filter (fun e => decide (e.1 ≠ k))
    else if C ≤ m.length then (k, v) :: m.dropLast
    else (k, v) :: m
  | Call.get k =>
    match m.find? (fun e => decide (e.1 = k)) with
    | some e => e :: m.filter (fun e => decide (e.1 ≠ k))
    | none => m
  | Call.remove k => m.filter (fun e => decide (e.1 ≠ k))
  | Call.find _ => m
  | Call.size => m

/-- The reference model run on a sequence of calls, from the empty list. -/
def ref_run (C : Nat) (cs : List (Call K V)) : List (K × V) :=
  cs.foldl (ref_step C) []

/-- Membership in the reference model. -/
def ref_contains (m : List (K × V)) (k : K) : Bool :=
  m.any (fun e => decide (e.1 = k))

/-- The first address of `l`, or `d` when `l` is empty. -/
def first_or (l : List Nat) (d : Option Nat) : Option Nat :=
  match l with
  | [] => d
  | q :: _ => some q

/-- The last address of `l`, or `d` when `l` is empty. -/
def last_or : List Nat → Option Nat → Option Nat
  | [], d => d
  | q :: r, _ => last_or r (some q)

/-- The nodes at the addresses `l` form a doubly linked segment in the heap:
each is allocated, its `previous_` is its predecessor in `l` (`prev` for the
first) and its `next_` is its successor in `l` (`nxt` for the last). -/
def Seg (h : List (Node K V)) : Option Nat → List Nat → Option Nat → Prop
  | _, [], _ => True
  | prev, p :: rest, nxt =>
    p < h.length ∧ previous_of h p = prev ∧ next_of h p = first_or rest nxt ∧
      Seg h (some p) rest nxt

/-- The representation invariant: `l` lists the addresses of the recency list
from `head_` to `tail_`, `f` those of the free chain from `buffer_`; both are
doubly linked, no node is in both or twice in one, the table maps exactly the
keys of the nodes of `l` to their nodes, `length_` is the length of `l`, and at
most `max(MAX_, 1)` nodes are held. -/
structure WF (s : BreadthFixedMap K V) (l f : List Nat) : Prop where
  list : Seg s.store none l none
  head : s.head_ = first_or l none
  tail : s.tail_ = last_or l none
  free : Seg s.store none f none
  buffer : s.buffer_ = first_or f none
  nodup : (l ++ f).Nodup
  table : ∀ (k : K) (p : Nat),
    table_find s.table_ k = some p ↔ (p ∈ l ∧ key_of s.store p = some k)
  length : s.length_ = l.length
  bound : l.length ≤ max s.MAX_ 1
  max_lt : s.MAX_ < SIZE_MOD

/-- The state in the middle of `get` and `add`, when `node` is unlinked and about
to be put at the head: `l` and `f` are the recency list and the free chain,
`node` is in neither, and the table and `length_` already count `node`. -/
structure WFD (s : BreadthFixedMap K V) (l f : List Nat) (node : Nat) : Prop where
  list : Seg s.store none l none
  head : s.head_ = first_or l none
  tail : s.tail_ = last_or l none
  free : Seg s.store none f none
  buffer : s.buffer_ = first_or f none
  nodup : (node :: (l ++ f)).Nodup
  valid : node < s.store.length
  prev : previous_of s.store node = none
  table : ∀ (k : K) (p : Nat),
    table_find s.table_ k = some p ↔ (p ∈ node :: l ∧ key_of s.store p = some k)
  length : s.length_ = l.length + 1
  bound : l.length + 1 ≤ max s.MAX_ 1
  max_lt : s.MAX_ < SIZE_MOD

/-- The calls out of reach of the defect of `get`: every call except a `get` made
when the key is absent or when fewer than two entries are held. -/
def safe_call (s : BreadthFixedMap K V) : Call K V → Bool
  | Call.get key => find s key && decide (2 ≤ size s)
  | _ => true

/-- Every call of the sequence is a `safe_call` in the state it is made in. -/
def safe_run (fuel : Nat) : BreadthFixedMap K V → List (Call K V) → Bool
  | _, [] => true
  | s, c :: cs =>
    safe_call s c &&
      (match step fuel s c with
       | some s1 => safe_run fuel s1 cs
       | none => true)

/-- A concrete state: capacity 2 after `add(1, 10)`, `add(2, 20)`. -/
def example_full : BreadthFixedMap Nat Nat :=
  { store := [{ key_ := 1, value_ := 10, previous_ := some 1, next_ := none },
              { key_ := 2, value_ := 20, previous_ := none, next_ := some 0 }],
    table_ := [(1, 0), (2, 1)],
    head_ := some 1,
    tail_ := some 0,
    buffer_ := none,
    length_ := 2,
    MAX_ := 2 }

/-- The addresses met when following `next_` links from `p` until null, in
order; `none` when more than `fuel` nodes are met. -/
def walk (h : List (Node K V)) : Nat → Option Nat → Option (List Nat)
  | _, none => some []
  | 0, some _ => none
  | fuel + 1, some p => (walk h fuel (next_of h p)).map (fun r => p :: r)

/-- The destructor (lines 170-185): the addresses passed to `delete`, in order,
first along the chain from `head_`, then along the chain from `buffer_`.  Each
walk may visit at most `fuel` nodes. -/
def destructor (fuel : Nat) (s : BreadthFixedMap K V) : Option (List Nat) :=
  match walk s.store fuel s.head_ with
  | none => none
  | some a =>
    match walk s.store fuel s.buffer_ with
    | none => none
    | some b => some (a ++ b)

/-- The states in which the loop of line 269 calls `remove(tail_)`, in order;
`none` when the loop needs more than `fuel` iterations. -/
def evict_trace : Nat → BreadthFixedMap K V → Option (List (BreadthFixedMap K V))
  | 0, s =>
    if s.MAX_ ≤ s.length_ then
      match s.tail_ with
      | some _ => none
      | none => some []
    else some []
  | fuel + 1, s =>
    if s.MAX_ ≤ s.length_ then
      match s.tail_ with
      | some t => (evict_trace fuel (remove_node s t)).map (fun r => s :: r)
      | none => some []
    else some []

/-- A sequence of calls without its `find` calls. -/
def without_find : List (Call K V) → List (Call K V)
  | [] => []
  | Call.find _ :: cs => without_find cs
  | c :: cs => c :: without_find cs

/-- The bound of claim C19 on the iterations of the eviction loop:
`length_ - MAX_ + 1`, and zero when `length_ < MAX_`. -/
def evict_bound (s : BreadthFixedMap K V) : Nat :=
  if s.length_ < s.MAX_ then 0 else s.length_ - s.MAX_ + 1

/-- A state of a capacity 0 map with an empty table, no list head, and two
nodes linked `1 -> 0` from `buffer_`, with `tail_` on node 0.  With
`length_ = 2 ^ 64 - 1` it is reached by `add(1, 10)`, `get(1)`, `add(2, 20)`,
`add(3, 30)`, `remove(1)`, `remove(3)`. -/
def stuck_even (len : Nat) : BreadthFixedMap Nat Nat :=
  { store := [{ key_ := 1, value_ := 10, previous_ := some 1, next_ := none },
              { key_ := 3, value_ := 30, previous_ := none, next_ := some 0 }],
    table_ := [],
    head_ := none,
    tail_ := some 0,
    buffer_ := some 1,
    length_ := len,
    MAX_ := 0 }

/-- The state `stuck_even` with the roles of the two nodes exchanged: linked
`0 -> 1` from `buffer_`, with `tail_` on node 1. -/
def stuck_odd (len : Nat) : BreadthFixedMap Nat Nat :=
  { store := [{ key_ := 1, value_ := 10, previous_ := none, next_ := some 1 },
              { key_ := 3, value_ := 30, previous_ := some 0, next_ := none }],
    table_ := [],
    head_ := none,
    tail_ := some 1,
    buffer_ := some 0,
    length_ := len,
    MAX_ := 0 }

/-- A concrete state: capacity 3 after `add(1, 10)`, `add(2, 20)`, `add(3, 30)`;
the recency list is 2, 1, 0. -/
def example_three : BreadthFixedMap Nat Nat :=
  { store := [{ key_ := 1, value_ := 10, previous_ := some 1, next_ := none },
              { key_ := 2, value_ := 20, previous_ := some 2, next_ := some 0 },
              { key_ := 3, value_ := 30, previous_ := none, next_ := some 1 }],
    table_ := [(1, 0), (2, 1), (3, 2)],
    head_ := some 2,
    tail_ := some 0,
    buffer_ := none,
    length_ := 3,
    MAX_ := 3 }

/-- A concrete state: capacity 2 after `add(1, 10)`, `add(2, 20)`, `remove(1)`,
`remove(2)`; the free chain is 1, 0. -/
def example_pool : BreadthFixedMap Nat Nat :=
  { store := [{ key_ := 1, value_ := 10, previous_ := some 1, next_ := none },
              { key_ := 2, value_ := 20, previous_ := none, next_ := some 0 }],
    table_ := [],
    head_ := none,
    tail_ := none,
    buffer_ := some 1,
    length_ := 0,
    MAX_ := 2 }

/-- The key and value held by the node at address `p`. -/
def entry_of (h : List (Node K V)) (p : Nat) : Option (K × V) :=
  match key_of h p, value_of h p with
  | some k, some v => some (k, v)
  | _, _ => none

/-- The nodes at the addresses `l` hold, in this order, the key/value pairs
`m`. -/
def Holds (h : List (Node K V)) (l : List Nat) (m : List (K × V)) : Prop :=
  l.map (entry_of h) = m.map some

/-- The list of nodes left by the eviction loop when the recency list is `l`:
the last node goes when `MAX_ <= length_`. -/
def after_evict (s : BreadthFixedMap K V) (l : List Nat) : List Nat :=
  if s.MAX_ ≤ l.length then l.dropLast else l

/-- Calling `get` on each key of a list in turn: the values returned and the
final state; `none` when one of the keys is absent. -/
def get_all : BreadthFixedMap K V → List K → Option (List V × BreadthFixedMap K V)
  | s, [] => some ([], s)
  | s, k :: ks =>
    match get s k with
    | none => none
    | some (v, s1) =>
      match get_all s1 ks with
      | none => none
      | some (vs, s2) => some (v :: vs, s2)

end BreadthFixedMap

/-! ## Theorems -/

section HeapLemmas

variable {K V : Type}



theorem length_write (h : List (Node K V)) (p : Nat) (f : Node K V → Node K V) :
    (write h p f).length = h.length := by
  unfold write
  split <;> simp

theorem getElem?_write (h : List (Node K V)) (p q : Nat) (f : Node K V → Node K V) :
    (write h p f)[q]? = if q = p then (h[q]?).map f else h[q]? := by
  unfold write
  split
  · rename_i n hn
    rw [List.getElem?_set]
    by_cases hqp : q = p
    · subst hqp
      have hlt : q < h.length := by
        rcases List.getElem?_eq_some.mp hn with ⟨hl, _⟩
        exact hl
      simp [hlt, hn]
    · have hpq : ¬ p = q := fun e => hqp e.symm
      simp [hqp, hpq]
  · rename_i hn
    by_cases hqp : q = p
    · subst hqp
      simp [hn]
    · simp [hqp]

@[simp] theorem length_set_next (h : List (Node K V)) (p : Nat) (v : Option Nat) :
    (set_next h p v).length = h.length := length_write h p _

@[simp] theorem length_set_previous (h : List (Node K V)) (p : Nat) (v : Option Nat) :
    (set_previous h p v).length = h.length := length_write h p _

theorem HeapOK_write {h : List (Node K V)} (hh : HeapOK h) (p : Nat)
    (f : Node K V → Node K V)
    (hf : ∀ n, LinksOK h.length n → LinksOK h.length (f n)) :
    HeapOK (write h p f) := by
  intro q n hq
  rw [getElem?_write] at hq
  rw [length_write]
  by_cases hqp : q = p
  · simp only [hqp, if_true] at hq
    cases hp : h[p]? with
    | none => simp [hp] at hq
    | some m =>
      simp only [hp, Option.map_some', Option.some.injEq] at hq
      subst hq
      exact hf m (hh p m hp)
  · simp only [hqp, if_false] at hq
    exact hh q n hq

theorem HeapOK_set_next {h : List (Node K V)} (hh : HeapOK h) (p : Nat) {v : Option Nat}
    (hv : PtrOK h.length v) : HeapOK (set_next h p v) :=
  HeapOK_write hh p _ (fun _ hn => ⟨hn.1, hv⟩)

theorem HeapOK_set_previous {h : List (Node K V)} (hh : HeapOK h) (p : Nat) {v : Option Nat}
    (hv : PtrOK h.length v) : HeapOK (set_previous h p v) :=
  HeapOK_write hh p _ (fun _ hn => ⟨hv, hn.2⟩)

theorem PtrOK_none (len : Nat) : PtrOK len none := by
  intro p hp
  cases hp

theorem PtrOK_some {len p : Nat} (hp : p < len) : PtrOK len (some p) := by
  intro q hq
  cases hq
  exact hp

theorem PtrOK_next_of {h : List (Node K V)} (hh : HeapOK h) (p : Nat) :
    PtrOK h.length (next_of h p) := by
  unfold next_of
  cases hp : h[p]? with
  | none => exact PtrOK_none _
  | some n => exact (hh p n hp).2

theorem PtrOK_previous_of {h : List (Node K V)} (hh : HeapOK h) (p : Nat) :
    PtrOK h.length (previous_of h p) := by
  unfold previous_of
  cases hp : h[p]? with
  | none => exact PtrOK_none _
  | some n => exact (hh p n hp).1

end HeapLemmas

namespace BreadthFixedMap

variable {K V : Type} [DecidableEq K]

theorem Valid_store {s : BreadthFixedMap K V} (hv : Valid s) {h : List (Node K V)}
    (hh : HeapOK h) (hl : h.length = s.store.length) : Valid { s with store := h } := by
  refine ⟨hh, ?_, ?_, ?_, ?_⟩
  · simpa [hl] using hv.head
  · simpa [hl] using hv.tail
  · simpa [hl] using hv.buffer
  · simpa [hl] using hv.table

theorem Valid_head {s : BreadthFixedMap K V} (hv : Valid s) {v : Option Nat}
    (hp : PtrOK s.store.length v) : Valid { s with head_ := v } :=
  ⟨hv.heap, hp, hv.tail, hv.buffer, hv.table⟩

theorem Valid_tail {s : BreadthFixedMap K V} (hv : Valid s) {v : Option Nat}
    (hp : PtrOK s.store.length v) : Valid { s with tail_ := v } :=
  ⟨hv.heap, hv.head, hp, hv.buffer, hv.table⟩

theorem Valid_buffer {s : BreadthFixedMap K V} (hv : Valid s) {v : Option Nat}
    (hp : PtrOK s.store.length v) : Valid { s with buffer_ := v } :=
  ⟨hv.heap, hv.head, hv.tail, hp, hv.table⟩

theorem Valid_length {s : BreadthFixedMap K V} (hv : Valid s) (n : Nat) :
    Valid { s with length_ := n } :=
  ⟨hv.heap, hv.head, hv.tail, hv.buffer, hv.table⟩

theorem Valid_set_next {s : BreadthFixedMap K V} (hv : Valid s) (p : Nat) {v : Option Nat}
    (hp : PtrOK s.store.length v) : Valid { s with store := set_next s.store p v } :=
  Valid_store hv (HeapOK_set_next hv.heap p hp) (length_set_next _ _ _)

theorem Valid_set_previous {s : BreadthFixedMap K V} (hv : Valid s) (p : Nat)
    {v : Option Nat} (hp : PtrOK s.store.length v) :
    Valid { s with store := set_previous s.store p v } :=
  Valid_store hv (HeapOK_set_previous hv.heap p hp) (length_set_previous _ _ _)

theorem pick_up_node_eq (s : BreadthFixedMap K V) (node : Nat) :
    pick_up_node s node = clear_links (pick_up_back (pick_up_front s node) node) node := rfl

theorem Valid_pick_up_front {s : BreadthFixedMap K V} (hv : Valid s) (node : Nat) :
    Valid (pick_up_front s node) := by
  unfold pick_up_front
  split
  · exact Valid_set_next hv _ (PtrOK_next_of hv.heap node)
  · have h0 : Valid { s with head_ := next_of s.store node } :=
      Valid_head hv (PtrOK_next_of hv.heap node)
    simp only
    split
    · exact Valid_set_previous h0 _ (PtrOK_none _)
    · exact h0

theorem Valid_pick_up_back {s : BreadthFixedMap K V} (hv : Valid s) (node : Nat) :
    Valid (pick_up_back s node) := by
  unfold pick_up_back
  split
  · exact Valid_set_previous hv _ (PtrOK_previous_of hv.heap node)
  · have h0 : Valid { s with tail_ := previous_of s.store node } :=
      Valid_tail hv (PtrOK_previous_of hv.heap node)
    simp only
    split
    · exact Valid_set_next h0 _ (PtrOK_none _)
    · exact h0

theorem Valid_clear_links {s : BreadthFixedMap K V} (hv : Valid s) (node : Nat) :
    Valid (clear_links s node) := by
  unfold clear_links
  have h1 := Valid_set_next hv node (PtrOK_none s.store.length)
  have h2 := Valid_set_previous h1 node (PtrOK_none _)
  exact h2

theorem Valid_pick_up_node {s : BreadthFixedMap K V} (hv : Valid s) (node : Nat) :
    Valid (pick_up_node s node) := by
  rw [pick_up_node_eq]
  exact Valid_clear_links (Valid_pick_up_back (Valid_pick_up_front hv node) node) node

theorem store_length_pick_up_node (s : BreadthFixedMap K V) (node : Nat) :
    (pick_up_node s node).store.length = s.store.length := by
  rw [pick_up_node_eq]
  unfold clear_links pick_up_back pick_up_front
  simp only [length_set_next, length_set_previous]
  split <;> split <;> (try split) <;> (try split) <;> simp

theorem delete_node_eq (s : BreadthFixedMap K V) (node : Nat) :
    delete_node s node = push_free (pick_up_node s node) node := rfl

theorem Valid_push_free {s : BreadthFixedMap K V} (hv : Valid s) {node : Nat}
    (hn : node < s.store.length) : Valid (push_free s node) := by
  unfold push_free
  cases hb : s.buffer_ with
  | none =>
    have h3 := Valid_set_next hv node (PtrOK_none s.store.length)
    have h4 := Valid_length (Valid_buffer h3 (v := some node)
      (PtrOK_some (by simpa using hn))) ((s.length_ + SIZE_MOD - 1) % SIZE_MOD)
    simpa [hb] using h4
  | some b =>
    have hbv : PtrOK s.store.length (some b) := hb ▸ hv.buffer
    have h2 := Valid_set_previous hv b (PtrOK_some hn)
    have h3 := Valid_set_next h2 node (v := some b) (by simpa using hbv)
    have h4 := Valid_length (Valid_buffer h3 (v := some node)
      (PtrOK_some (by simpa using hn))) ((s.length_ + SIZE_MOD - 1) % SIZE_MOD)
    simpa [hb] using h4

theorem Valid_delete_node {s : BreadthFixedMap K V} (hv : Valid s) {node : Nat}
    (hn : node < s.store.length) : Valid (delete_node s node) := by
  rw [delete_node_eq]
  exact Valid_push_free (Valid_pick_up_node hv node)
    (by rw [store_length_pick_up_node]; exact hn)

theorem store_length_delete_node (s : BreadthFixedMap K V) (node : Nat) :
    (delete_node s node).store.length = s.store.length := by
  unfold delete_node
  simp only [length_set_next]
  split <;> simp [store_length_pick_up_node]

theorem mem_table_erase {t : List (K × Nat)} {key : K} {e : K × Nat}
    (he : e ∈ table_erase t key) : e ∈ t := by
  unfold table_erase at he
  exact (List.mem_filter.mp he).1

theorem Valid_remove_node {s : BreadthFixedMap K V} (hv : Valid s) {node : Nat}
    (hn : node < s.store.length) : Valid (remove_node s node) := by
  unfold remove_node
  have h1 := Valid_delete_node hv hn
  simp only
  split
  · exact ⟨h1.heap, h1.head, h1.tail, h1.buffer,
      fun k p hp => h1.table k p (mem_table_erase hp)⟩
  · exact h1

theorem store_length_remove_node (s : BreadthFixedMap K V) (node : Nat) :
    (remove_node s node).store.length = s.store.length := by
  unfold remove_node
  simp only
  split <;> simp [store_length_delete_node]

theorem mem_of_table_find {t : List (K × Nat)} {key : K} {p : Nat}
    (h : table_find t key = some p) : (key, p) ∈ t := by
  induction t with
  | nil => simp [table_find] at h
  | cons e rest ih =>
    obtain ⟨k, q⟩ := e
    unfold table_find at h
    split at h
    · rename_i hk
      cases h
      subst hk
      exact List.mem_cons_self _ _
    · exact List.mem_cons_of_mem _ (ih h)

theorem new_node_eq (s : BreadthFixedMap K V) (key : K) (value : V) :
    new_node s key value =
      ((take_node s key value).1,
       { (take_node s key value).2 with
          length_ := ((take_node s key value).2.length_ + 1) % SIZE_MOD,
          store := set_previous (set_next (take_node s key value).2.store
            (take_node s key value).1 none) (take_node s key value).1 none }) := rfl

theorem Valid_evict_loop (fuel : Nat) : ∀ {s s1 : BreadthFixedMap K V}, Valid s →
    evict_loop fuel s = some s1 → Valid s1 := by
  induction fuel with
  | zero =>
    intro s s1 hv h
    unfold evict_loop at h
    split at h
    · split at h
      · cases h
      · cases h; exact hv
    · cases h; exact hv
  | succ n ih =>
    intro s s1 hv h
    unfold evict_loop at h
    split at h
    · split at h
      · rename_i t ht
        exact ih (Valid_remove_node hv (hv.tail t ht)) h
      · cases h; exact hv
    · cases h; exact hv

theorem value_of_write_links (h : List (Node K V)) (p q : Nat) (f : Node K V → Node K V)
    (hf : ∀ n, (f n).value_ = n.value_) : value_of (write h p f) q = value_of h q := by
  unfold value_of
  rw [getElem?_write]
  split
  · cases h[q]? <;> simp [hf]
  · rfl

@[simp] theorem value_of_set_next (h : List (Node K V)) (p q : Nat) (v : Option Nat) :
    value_of (set_next h p v) q = value_of h q :=
  value_of_write_links h p q _ (fun _ => rfl)

@[simp] theorem value_of_set_previous (h : List (Node K V)) (p q : Nat) (v : Option Nat) :
    value_of (set_previous h p v) q = value_of h q :=
  value_of_write_links h p q _ (fun _ => rfl)

theorem key_of_write_links (h : List (Node K V)) (p q : Nat) (f : Node K V → Node K V)
    (hf : ∀ n, (f n).key_ = n.key_) : key_of (write h p f) q = key_of h q := by
  unfold key_of
  rw [getElem?_write]
  split
  · cases h[q]? <;> simp [hf]
  · rfl

@[simp] theorem key_of_set_next (h : List (Node K V)) (p q : Nat) (v : Option Nat) :
    key_of (set_next h p v) q = key_of h q :=
  key_of_write_links h p q _ (fun _ => rfl)

@[simp] theorem key_of_set_previous (h : List (Node K V)) (p q : Nat) (v : Option Nat) :
    key_of (set_previous h p v) q = key_of h q :=
  key_of_write_links h p q _ (fun _ => rfl)

/-- What `pick_up_node` leaves alone: the table, the free chain pointer, the
counters, and the key and value of every node. -/
theorem pick_up_node_frame (s : BreadthFixedMap K V) (node : Nat) :
    (pick_up_node s node).table_ = s.table_ ∧
    (pick_up_node s node).buffer_ = s.buffer_ ∧
    (pick_up_node s node).length_ = s.length_ ∧
    (pick_up_node s node).MAX_ = s.MAX_ ∧
    (∀ q, value_of (pick_up_node s node).store q = value_of s.store q) ∧
    (∀ q, key_of (pick_up_node s node).store q = key_of s.store q) := by
  rw [pick_up_node_eq]
  unfold clear_links pick_up_back pick_up_front
  simp only
  split <;> split <;> (try split) <;> (try split) <;> simp

theorem link_head_frame (s : BreadthFixedMap K V) (node : Nat) :
    (link_head s node).table_ = s.table_ ∧
    (link_head s node).buffer_ = s.buffer_ ∧
    (link_head s node).length_ = s.length_ ∧
    (link_head s node).MAX_ = s.MAX_ ∧
    (link_head s node).tail_ = s.tail_ ∧
    (link_head s node).head_ = some node ∧
    (∀ q, value_of (link_head s node).store q = value_of s.store q) ∧
    (∀ q, key_of (link_head s node).store q = key_of s.store q) := by
  unfold link_head
  simp only
  split <;> simp

theorem fix_tail_frame (s : BreadthFixedMap K V) (node : Nat) :
    (fix_tail s node).table_ = s.table_ ∧
    (fix_tail s node).buffer_ = s.buffer_ ∧
    (fix_tail s node).length_ = s.length_ ∧
    (fix_tail s node).MAX_ = s.MAX_ ∧
    (fix_tail s node).head_ = s.head_ ∧
    (fix_tail s node).store = s.store := by
  unfold fix_tail
  split <;> simp

theorem add_front_frame (s : BreadthFixedMap K V) (node : Nat) :
    (add_front s node).table_ = s.table_ ∧
    (add_front s node).buffer_ = s.buffer_ ∧
    (add_front s node).length_ = s.length_ ∧
    (add_front s node).MAX_ = s.MAX_ ∧
    (add_front s node).head_ = some node ∧
    (∀ q, value_of (add_front s node).store q = value_of s.store q) ∧
    (∀ q, key_of (add_front s node).store q = key_of s.store q) := by
  unfold add_front
  obtain ⟨a1, a2, a3, a4, a5, a6⟩ := fix_tail_frame (link_head s node) node
  obtain ⟨b1, b2, b3, b4, _, b6, b7, b8⟩ := link_head_frame s node
  refine ⟨a1.trans b1, a2.trans b2, a3.trans b3, a4.trans b4, a5.trans b6, ?_, ?_⟩
  · intro q; rw [a6]; exact b7 q
  · intro q; rw [a6]; exact b8 q

theorem add_of_find {s : BreadthFixedMap K V} {key : K} {node : Nat}
    (hf : table_find s.table_ key = some node) (fuel : Nat) (value : V) :
    add fuel s key value = some (add_front
      { pick_up_node s node with
        store := write (pick_up_node s node).store node (fun n => { n with value_ := value }) }
      node) := by
  unfold add
  rw [hf]
  rfl

theorem table_find_append (t u : List (K × Nat)) (key : K) :
    table_find (t ++ u) key = (table_find t key).or (table_find u key) := by
  induction t with
  | nil => simp [table_find]
  | cons e rest ih =>
    obtain ⟨k, q⟩ := e
    simp only [List.cons_append, table_find]
    split
    · simp
    · exact ih

theorem new_node_table (s : BreadthFixedMap K V) (key : K) (value : V) :
    (new_node s key value).2.table_ = s.table_ := by
  rw [new_node_eq]
  unfold take_node
  simp only
  split
  · split <;> rfl
  · rfl

theorem value_of_write_value (h : List (Node K V)) {p : Nat} (hp : p < h.length) (v : V) :
    value_of (write h p (fun n => { n with value_ := v })) p = some v := by
  unfold value_of
  rw [getElem?_write]
  obtain ⟨n, hn⟩ : ∃ n, h[p]? = some n := ⟨h[p], List.getElem?_eq_getElem hp⟩
  simp [hn]

theorem next_of_set_next (h : List (Node K V)) (p q : Nat) (v : Option Nat) :
    next_of (set_next h p v) q = if q = p ∧ p < h.length then v else next_of h q := by
  unfold next_of set_next
  rw [getElem?_write]
  by_cases hq : q = p
  · subst hq
    by_cases hl : q < h.length
    · simp [hl, List.getElem?_eq_getElem hl]
    · simp [hl, List.getElem?_eq_none (Nat.le_of_not_lt hl)]
  · simp [hq]

theorem previous_of_set_previous (h : List (Node K V)) (p q : Nat) (v : Option Nat) :
    previous_of (set_previous h p v) q =
      if q = p ∧ p < h.length then v else previous_of h q := by
  unfold previous_of set_previous
  rw [getElem?_write]
  by_cases hq : q = p
  · subst hq
    by_cases hl : q < h.length
    · simp [hl, List.getElem?_eq_getElem hl]
    · simp [hl, List.getElem?_eq_none (Nat.le_of_not_lt hl)]
  · simp [hq]

@[simp] theorem next_of_set_previous (h : List (Node K V)) (p q : Nat) (v : Option Nat) :
    next_of (set_previous h p v) q = next_of h q := by
  unfold next_of set_previous
  rw [getElem?_write]
  by_cases hq : q = p
  · simp only [hq, if_true]
    cases h[p]? <;> rfl
  · simp only [hq, if_false]

@[simp] theorem previous_of_set_next (h : List (Node K V)) (p q : Nat) (v : Option Nat) :
    previous_of (set_next h p v) q = previous_of h q := by
  unfold previous_of set_next
  rw [getElem?_write]
  by_cases hq : q = p
  · simp only [hq, if_true]
    cases h[p]? <;> rfl
  · simp only [hq, if_false]

theorem next_of_set_next_ne (h : List (Node K V)) {p q : Nat} (hq : q ≠ p) (v : Option Nat) :
    next_of (set_next h p v) q = next_of h q := by
  rw [next_of_set_next]; simp [hq]

theorem next_of_set_next_self (h : List (Node K V)) {p : Nat} (hp : p < h.length)
    (v : Option Nat) : next_of (set_next h p v) p = v := by
  rw [next_of_set_next]; simp [hp]

theorem previous_of_set_previous_ne (h : List (Node K V)) {p q : Nat} (hq : q ≠ p)
    (v : Option Nat) : previous_of (set_previous h p v) q = previous_of h q := by
  rw [previous_of_set_previous]; simp [hq]

theorem previous_of_set_previous_self (h : List (Node K V)) {p : Nat} (hp : p < h.length)
    (v : Option Nat) : previous_of (set_previous h p v) p = v := by
  rw [previous_of_set_previous]; simp [hp]

/-- A segment only depends on the links of its own nodes. -/
theorem Seg_congr {h h1 : List (Node K V)} (hl : h.length ≤ h1.length) :
    ∀ (l : List Nat) (prev nxt : Option Nat),
      (∀ q, q ∈ l → previous_of h1 q = previous_of h q ∧ next_of h1 q = next_of h q) →
      Seg h prev l nxt → Seg h1 prev l nxt := by
  intro l
  induction l with
  | nil => intro _ _ _ _; trivial
  | cons p rest ih =>
    intro prev nxt hq hs
    obtain ⟨h1', h2, h3, h4⟩ := hs
    have hp := hq p (List.mem_cons_self _ _)
    refine ⟨Nat.lt_of_lt_of_le h1' hl, hp.1.trans h2, hp.2.trans h3, ?_⟩
    exact ih (some p) nxt (fun q hqm => hq q (List.mem_cons_of_mem _ hqm)) h4

theorem Seg_set_next_frame {h : List (Node K V)} {l : List Nat} {prev nxt : Option Nat}
    (hs : Seg h prev l nxt) {p : Nat} (hp : p ∉ l) (v : Option Nat) :
    Seg (set_next h p v) prev l nxt := by
  refine Seg_congr (by simp) l prev nxt ?_ hs
  intro q hq
  have hne : q ≠ p := fun e => hp (e ▸ hq)
  exact ⟨previous_of_set_next _ _ _ _, next_of_set_next_ne _ hne _⟩

theorem Seg_set_previous_frame {h : List (Node K V)} {l : List Nat} {prev nxt : Option Nat}
    (hs : Seg h prev l nxt) {p : Nat} (hp : p ∉ l) (v : Option Nat) :
    Seg (set_previous h p v) prev l nxt := by
  refine Seg_congr (by simp) l prev nxt ?_ hs
  intro q hq
  have hne : q ≠ p := fun e => hp (e ▸ hq)
  exact ⟨previous_of_set_previous_ne _ hne _, next_of_set_previous _ _ _ _⟩

/-- Changing the `previous_` link of the first node of a segment. -/
theorem Seg_set_previous_first {h : List (Node K V)} {q : Nat} {r : List Nat}
    {prev nxt : Option Nat} (hs : Seg h prev (q :: r) nxt) (hq : q ∉ r) (v : Option Nat) :
    Seg (set_previous h q v) v (q :: r) nxt := by
  obtain ⟨h1, _, h3, h4⟩ := hs
  exact ⟨by simpa using h1, previous_of_set_previous_self _ h1 _,
    by simpa using h3, Seg_set_previous_frame h4 hq v⟩

/-- Changing the `next_` link of the last node of a segment. -/
theorem Seg_set_next_last {h : List (Node K V)} (v : Option Nat) {p : Nat} :
    ∀ (l : List Nat) (prev nxt : Option Nat), Seg h prev (l ++ [p]) nxt → p ∉ l →
      Seg (set_next h p v) prev (l ++ [p]) v := by
  intro l
  induction l with
  | nil =>
    intro prev nxt hs _
    obtain ⟨h1, h2, _, _⟩ := hs
    exact ⟨by simpa using h1, by simpa using h2,
      by simpa [first_or] using next_of_set_next_self h h1 v, trivial⟩
  | cons a l ih =>
    intro prev nxt hs hp
    obtain ⟨h1, h2, h3, h4⟩ := hs
    have hne : a ≠ p := fun e => hp (e ▸ List.mem_cons_self _ _)
    have hpl : p ∉ l := fun e => hp (List.mem_cons_of_mem _ e)
    refine ⟨by simpa using h1, by simpa using h2, ?_, ih (some a) nxt h4 hpl⟩
    rw [next_of_set_next_ne _ hne]
    cases l <;> simpa [first_or] using h3

theorem Seg_cons {h : List (Node K V)} {prev nxt : Option Nat} {p : Nat} {rest : List Nat} :
    Seg h prev (p :: rest) nxt ↔
      (p < h.length ∧ previous_of h p = prev ∧ next_of h p = first_or rest nxt ∧
        Seg h (some p) rest nxt) := Iff.rfl

theorem first_or_append (l l2 : List Nat) (d : Option Nat) :
    first_or (l ++ l2) d = first_or l (first_or l2 d) := by
  cases l <;> simp [first_or]

theorem last_or_append (l l2 : List Nat) (d : Option Nat) :
    last_or (l ++ l2) d = last_or l2 (last_or l d) := by
  induction l generalizing d with
  | nil => simp [last_or]
  | cons a l ih => simp [last_or, ih]

theorem Seg_append {h : List (Node K V)} :
    ∀ (l1 l2 : List Nat) (prev nxt : Option Nat),
      Seg h prev (l1 ++ l2) nxt ↔
        Seg h prev l1 (first_or l2 nxt) ∧ Seg h (last_or l1 prev) l2 nxt := by
  intro l1
  induction l1 with
  | nil =>
    intro l2 prev nxt
    simp [Seg, last_or]
  | cons a l ih =>
    intro l2 prev nxt
    rw [List.cons_append, Seg_cons, Seg_cons, ih l2 (some a) nxt, first_or_append]
    simp only [last_or]
    tauto

theorem last_or_concat (l : List Nat) (p : Nat) (d : Option Nat) :
    last_or (l ++ [p]) d = some p := by
  rw [last_or_append]
  rfl

theorem eq_nil_or_snoc (l : List Nat) : l = [] ∨ ∃ l0 p, l = l0 ++ [p] := by
  rcases List.eq_nil_or_concat l with h | ⟨l0, p, h⟩
  · exact Or.inl h
  · exact Or.inr ⟨l0, p, by rw [h, List.concat_eq_append]⟩

theorem pick_up_front_none_none {s : BreadthFixedMap K V} {node : Nat}
    (hp : previous_of s.store node = none) (hx : next_of s.store node = none) :
    pick_up_front s node = { s with head_ := none } := by
  unfold pick_up_front
  simp only [hp, hx]

theorem pick_up_front_none_some {s : BreadthFixedMap K V} {node n : Nat}
    (hp : previous_of s.store node = none) (hx : next_of s.store node = some n) :
    pick_up_front s node =
      { s with head_ := some n, store := set_previous s.store n none } := by
  unfold pick_up_front
  simp only [hp, hx]

theorem pick_up_front_some {s : BreadthFixedMap K V} {node p : Nat}
    (hp : previous_of s.store node = some p) :
    pick_up_front s node =
      { s with store := set_next s.store p (next_of s.store node) } := by
  unfold pick_up_front
  simp only [hp]

theorem pick_up_back_none_none {s : BreadthFixedMap K V} {node : Nat}
    (hx : next_of s.store node = none) (hp : previous_of s.store node = none) :
    pick_up_back s node = { s with tail_ := none } := by
  unfold pick_up_back
  simp only [hp, hx]

theorem pick_up_back_none_some {s : BreadthFixedMap K V} {node t : Nat}
    (hx : next_of s.store node = none) (hp : previous_of s.store node = some t) :
    pick_up_back s node =
      { s with tail_ := some t, store := set_next s.store t none } := by
  unfold pick_up_back
  simp only [hp, hx]

theorem pick_up_back_some {s : BreadthFixedMap K V} {node n : Nat}
    (hx : next_of s.store node = some n) :
    pick_up_back s node =
      { s with store := set_previous s.store n (previous_of s.store node) } := by
  unfold pick_up_back
  simp only [hx]

theorem pick_up_front_spec {s : BreadthFixedMap K V} {l1 l2 : List Nat} {node : Nat}
    (hs : Seg s.store none (l1 ++ node :: l2) none)
    (hh : s.head_ = first_or (l1 ++ node :: l2) none)
    (hnd : (l1 ++ node :: l2).Nodup) :
    Seg (pick_up_front s node).store none l1 (first_or l2 none) ∧
    previous_of (pick_up_front s node).store node = last_or l1 none ∧
    next_of (pick_up_front s node).store node = first_or l2 none ∧
    (∃ pv, Seg (pick_up_front s node).store pv l2 none) ∧
    (pick_up_front s node).head_ = first_or (l1 ++ l2) none ∧
    (pick_up_front s node).tail_ = s.tail_ ∧
    (pick_up_front s node).store.length = s.store.length ∧
    (∀ q, q ∉ l1 ++ node :: l2 →
      previous_of (pick_up_front s node).store q = previous_of s.store q ∧
      next_of (pick_up_front s node).store q = next_of s.store q) := by
  rw [Seg_append] at hs
  obtain ⟨hA, hB⟩ := hs
  obtain ⟨hn, hp, hx, hC⟩ := hB
  rw [List.nodup_append] at hnd
  obtain ⟨hnd1, hnd2, hdis⟩ := hnd
  have hn1 : node ∉ l1 := fun e => hdis e (List.mem_cons_self _ _)
  have hn2 : node ∉ l2 := (List.nodup_cons.mp hnd2).1
  rcases eq_nil_or_snoc l1 with rfl | ⟨l0, p, rfl⟩
  · -- `node` is the head of the list
    have hp0 : previous_of s.store node = none := hp
    cases l2 with
    | nil =>
      have hx0 : next_of s.store node = none := hx
      rw [pick_up_front_none_none hp0 hx0]
      exact ⟨trivial, hp, hx, ⟨none, trivial⟩, rfl, rfl, rfl, fun q _ => ⟨rfl, rfl⟩⟩
    | cons n r =>
      have hx0 : next_of s.store node = some n := hx
      rw [pick_up_front_none_some hp0 hx0]
      have hne : node ≠ n := fun e => hn2 (e ▸ List.mem_cons_self _ _)
      have hnr : n ∉ r := (List.nodup_cons.mp (List.nodup_cons.mp hnd2).2).1
      refine ⟨trivial, ?_, ?_, ⟨none, Seg_set_previous_first hC hnr none⟩, rfl, rfl, ?_, ?_⟩
      · show previous_of (set_previous s.store n none) node = _
        rw [previous_of_set_previous_ne _ hne]; exact hp
      · show next_of (set_previous s.store n none) node = _
        rw [next_of_set_previous]; exact hx
      · exact length_set_previous _ _ _
      · intro q hq
        have hqn : q ≠ n := fun e => hq (e ▸ List.mem_cons_of_mem _ (List.mem_cons_self _ _))
        exact ⟨previous_of_set_previous_ne _ hqn _, next_of_set_previous _ _ _ _⟩
  · -- `node` has the predecessor `p`
    rw [last_or_concat] at hp
    rw [pick_up_front_some hp]
    have hpl0 : p ∉ l0 := by
      intro e
      have := List.nodup_append.mp hnd1
      exact this.2.2 e (List.mem_singleton_self p)
    have hne : node ≠ p := fun e => hn1 (e ▸ List.mem_append_right _ (List.mem_singleton_self _))
    have hp2 : p ∉ l2 := fun e =>
      hdis (List.mem_append_right _ (List.mem_singleton_self _)) (List.mem_cons_of_mem _ e)
    refine ⟨?_, ?_, ?_, ⟨some node, Seg_set_next_frame hC hp2 _⟩, ?_, rfl, ?_, ?_⟩
    · show Seg (set_next s.store p (next_of s.store node)) none (l0 ++ [p]) _
      rw [hx]
      exact Seg_set_next_last _ l0 none (some node) hA hpl0
    · show previous_of (set_next s.store p (next_of s.store node)) node = _
      rw [previous_of_set_next, last_or_concat]; exact hp
    · show next_of (set_next s.store p (next_of s.store node)) node = _
      rw [next_of_set_next_ne _ hne]; exact hx
    · show s.head_ = _
      rw [hh]
      cases l0 <;> rfl
    · exact length_set_next _ _ _
    · intro q hq
      have hqp : q ≠ p := fun e =>
        hq (e ▸ List.mem_append_left _ (List.mem_append_right _ (List.mem_singleton_self _)))
      exact ⟨previous_of_set_next _ _ _ _, next_of_set_next_ne _ hqp _⟩

theorem pick_up_back_spec {s : BreadthFixedMap K V} {l1 l2 : List Nat} {node : Nat}
    {pv : Option Nat}
    (hA : Seg s.store none l1 (first_or l2 none))
    (hp : previous_of s.store node = last_or l1 none)
    (hx : next_of s.store node = first_or l2 none)
    (hC : Seg s.store pv l2 none)
    (ht : s.tail_ = last_or (l1 ++ node :: l2) none)
    (hnd : (l1 ++ node :: l2).Nodup) :
    Seg (pick_up_back s node).store none l1 (first_or l2 none) ∧
    Seg (pick_up_back s node).store (last_or l1 none) l2 none ∧
    (pick_up_back s node).head_ = s.head_ ∧
    (pick_up_back s node).tail_ = last_or (l1 ++ l2) none ∧
    (pick_up_back s node).store.length = s.store.length ∧
    (∀ q, q ∉ l1 ++ node :: l2 →
      previous_of (pick_up_back s node).store q = previous_of s.store q ∧
      next_of (pick_up_back s node).store q = next_of s.store q) := by
  rw [List.nodup_append] at hnd
  obtain ⟨hnd1, hnd2, hdis⟩ := hnd
  cases l2 with
  | nil =>
    have hx0 : next_of s.store node = none := hx
    rcases eq_nil_or_snoc l1 with rfl | ⟨l0, t, rfl⟩
    · have hp0 : previous_of s.store node = none := hp
      rw [pick_up_back_none_none hx0 hp0]
      exact ⟨trivial, trivial, rfl, rfl, rfl, fun q _ => ⟨rfl, rfl⟩⟩
    · rw [last_or_concat] at hp
      rw [pick_up_back_none_some hx0 hp]
      have htl0 : t ∉ l0 := by
        intro e
        exact (List.nodup_append.mp hnd1).2.2 e (List.mem_singleton_self t)
      refine ⟨?_, trivial, rfl, ?_, ?_, ?_⟩
      · exact Seg_set_next_last none l0 none _ hA htl0
      · show some t = _
        rw [List.append_nil, last_or_concat]
      · exact length_set_next _ _ _
      · intro q hq
        have hqt : q ≠ t := fun e =>
          hq (e ▸ List.mem_append_left _ (List.mem_append_right _ (List.mem_singleton_self _)))
        exact ⟨previous_of_set_next _ _ _ _, next_of_set_next_ne _ hqt _⟩
  | cons n r =>
    have hx0 : next_of s.store node = some n := hx
    rw [pick_up_back_some hx0]
    have hnr : n ∉ r := (List.nodup_cons.mp (List.nodup_cons.mp hnd2).2).1
    have hn1 : n ∉ l1 := fun e =>
      hdis e (List.mem_cons_of_mem _ (List.mem_cons_self _ _))
    refine ⟨Seg_set_previous_frame hA hn1 _, ?_, rfl, ?_, ?_, ?_⟩
    · show Seg (set_previous s.store n (previous_of s.store node)) _ _ _
      rw [hp]
      exact Seg_set_previous_first hC hnr _
    · show s.tail_ = _
      rw [ht]
      simp [last_or_append, last_or]
    · exact length_set_previous _ _ _
    · intro q hq
      have hqn : q ≠ n := fun e =>
        hq (e ▸ List.mem_append_right _ (List.mem_cons_of_mem _ (List.mem_cons_self _ _)))
      exact ⟨previous_of_set_previous_ne _ hqn _, next_of_set_previous _ _ _ _⟩

/-- The effect of `pick_up_node` on a well-formed list: if `head_`, `tail_` and
the links describe the doubly linked list `l1 ++ node :: l2` without
repetition, then afterwards they describe `l1 ++ l2`, the links of `node` are
null, and the links of the nodes outside the list are unchanged. -/
theorem pick_up_node_spec {s : BreadthFixedMap K V} {l1 l2 : List Nat} {node : Nat}
    (hs : Seg s.store none (l1 ++ node :: l2) none)
    (hh : s.head_ = first_or (l1 ++ node :: l2) none)
    (ht : s.tail_ = last_or (l1 ++ node :: l2) none)
    (hnd : (l1 ++ node :: l2).Nodup) :
    Seg (pick_up_node s node).store none (l1 ++ l2) none ∧
    (pick_up_node s node).head_ = first_or (l1 ++ l2) none ∧
    (pick_up_node s node).tail_ = last_or (l1 ++ l2) none ∧
    previous_of (pick_up_node s node).store node = none ∧
    next_of (pick_up_node s node).store node = none ∧
    (∀ q, q ∉ l1 ++ node :: l2 →
      previous_of (pick_up_node s node).store q = previous_of s.store q ∧
      next_of (pick_up_node s node).store q = next_of s.store q) := by
  have hnode : node < s.store.length := ((Seg_append _ _ _ _).mp hs).2.1
  obtain ⟨a1, a2, a3, ⟨pv, a4⟩, a5, a6, a7, a8⟩ := pick_up_front_spec hs hh hnd
  obtain ⟨b1, b2, b3, b4, b5, b6⟩ :=
    pick_up_back_spec a1 a2 a3 a4 (a6.trans ht) hnd
  rw [pick_up_node_eq]
  generalize pick_up_back (pick_up_front s node) node = s2 at b1 b2 b3 b4 b5 b6
  generalize pick_up_front s node = s1 at a1 a2 a3 a4 a5 a6 a7 a8 b3 b5 b6
  have hnd' := List.nodup_append.mp hnd
  have hn1 : node ∉ l1 := fun e => hnd'.2.2 e (List.mem_cons_self _ _)
  have hn2 : node ∉ l2 := (List.nodup_cons.mp hnd'.2.1).1
  have hl2 : node < s2.store.length := by rw [b5, a7]; exact hnode
  unfold clear_links
  refine ⟨?_, b3.trans a5, b4, ?_, ?_, ?_⟩
  · rw [Seg_append]
    exact ⟨Seg_set_previous_frame (Seg_set_next_frame b1 hn1 _) hn1 _,
      Seg_set_previous_frame (Seg_set_next_frame b2 hn2 _) hn2 _⟩
  · exact previous_of_set_previous_self _ (by simpa using hl2) _
  · show next_of (set_previous (set_next s2.store node none) node none) node = none
    rw [next_of_set_previous]
    exact next_of_set_next_self _ hl2 _
  · intro q hq
    have hqn : q ≠ node := fun e =>
      hq (e ▸ List.mem_append_right _ (List.mem_cons_self _ _))
    show previous_of (set_previous (set_next s2.store node none) node none) q = _ ∧
      next_of (set_previous (set_next s2.store node none) node none) q = _
    rw [previous_of_set_previous_ne _ hqn, previous_of_set_next, next_of_set_previous,
      next_of_set_next_ne _ hqn]
    exact ⟨(b6 q hq).1.trans (a8 q hq).1, (b6 q hq).2.trans (a8 q hq).2⟩

theorem link_head_none {s : BreadthFixedMap K V} (hh : s.head_ = none) (node : Nat) :
    link_head s node = { s with store := set_next s.store node none, head_ := some node } := by
  unfold link_head
  simp only [hh]

theorem link_head_some {s : BreadthFixedMap K V} {h : Nat} (hh : s.head_ = some h)
    (node : Nat) :
    link_head s node =
      { s with store := set_previous (set_next s.store node (some h)) h (some node),
               head_ := some node } := by
  unfold link_head
  simp only [hh]

/-- The effect of lines 225-227 / 274-276 on a well-formed list: the unlinked
node becomes its first node. -/
theorem link_head_spec {s : BreadthFixedMap K V} {l : List Nat} {node : Nat}
    (hs : Seg s.store none l none) (hh : s.head_ = first_or l none)
    (hnd : l.Nodup) (hnl : node ∉ l) (hn : node < s.store.length)
    (hp : previous_of s.store node = none) :
    Seg (link_head s node).store none (node :: l) none ∧
    (link_head s node).store.length = s.store.length ∧
    (∀ q, q ∉ node :: l →
      previous_of (link_head s node).store q = previous_of s.store q ∧
      next_of (link_head s node).store q = next_of s.store q) := by
  cases l with
  | nil =>
    have hh0 : s.head_ = none := hh
    rw [link_head_none hh0]
    refine ⟨⟨by simpa using hn, ?_, ?_, trivial⟩, length_set_next _ _ _, ?_⟩
    · show previous_of (set_next s.store node none) node = none
      rw [previous_of_set_next]; exact hp
    · exact next_of_set_next_self _ hn _
    · intro q hq
      have hqn : q ≠ node := fun e => hq (e ▸ List.mem_cons_self _ _)
      exact ⟨previous_of_set_next _ _ _ _, next_of_set_next_ne _ hqn _⟩
  | cons h r =>
    have hh0 : s.head_ = some h := hh
    rw [link_head_some hh0]
    have hne : node ≠ h := fun e => hnl (e ▸ List.mem_cons_self _ _)
    have hhr : h ∉ r := (List.nodup_cons.mp hnd).1
    refine ⟨⟨by simpa using hn, ?_, ?_, ?_⟩, by simp, ?_⟩
    · show previous_of (set_previous (set_next s.store node (some h)) h (some node)) node = none
      rw [previous_of_set_previous_ne _ hne, previous_of_set_next]; exact hp
    · show next_of (set_previous (set_next s.store node (some h)) h (some node)) node = _
      rw [next_of_set_previous]
      exact next_of_set_next_self _ hn _
    · exact Seg_set_previous_first (Seg_set_next_frame hs hnl _) hhr _
    · intro q hq
      have hqn : q ≠ node := fun e => hq (e ▸ List.mem_cons_self _ _)
      have hqh : q ≠ h := fun e => hq (e ▸ List.mem_cons_of_mem _ (List.mem_cons_self _ _))
      show previous_of (set_previous (set_next s.store node (some h)) h (some node)) q = _ ∧
        next_of (set_previous (set_next s.store node (some h)) h (some node)) q = _
      rw [previous_of_set_previous_ne _ hqh, previous_of_set_next, next_of_set_previous,
        next_of_set_next_ne _ hqn]
      exact ⟨rfl, rfl⟩

theorem last_or_cons_of_ne_nil {l : List Nat} (hl : l ≠ []) (a : Nat) (d : Option Nat) :
    last_or (a :: l) d = last_or l d := by
  cases l with
  | nil => exact absurd rfl hl
  | cons b r => rfl

theorem last_or_eq_none {l : List Nat} (h : last_or l none = none) : l = [] := by
  rcases eq_nil_or_snoc l with rfl | ⟨l0, p, rfl⟩
  · rfl
  · rw [last_or_concat] at h
    cases h

theorem fix_tail_spec {s : BreadthFixedMap K V} {l : List Nat}
    (ht : s.tail_ = last_or l none) (node : Nat) :
    (fix_tail s node).tail_ = last_or (node :: l) none := by
  unfold fix_tail
  cases hs : s.tail_ with
  | none =>
    have hl : l = [] := last_or_eq_none (ht.symm.trans hs)
    subst hl
    rfl
  | some t =>
    have hl : l ≠ [] := by
      rintro rfl
      rw [hs] at ht
      cases ht
    rw [last_or_cons_of_ne_nil hl]
    simpa [hs] using ht

theorem push_free_none {s : BreadthFixedMap K V} (hb : s.buffer_ = none) (node : Nat) :
    push_free s node =
      { s with store := set_next s.store node none, buffer_ := some node,
               length_ := (s.length_ + SIZE_MOD - 1) % SIZE_MOD } := by
  unfold push_free
  simp only [hb]

theorem push_free_some {s : BreadthFixedMap K V} {b : Nat} (hb : s.buffer_ = some b)
    (node : Nat) :
    push_free s node =
      { s with store := set_next (set_previous s.store b (some node)) node (some b),
               buffer_ := some node,
               length_ := (s.length_ + SIZE_MOD - 1) % SIZE_MOD } := by
  unfold push_free
  simp only [hb]

/-- The effect of lines 135-138 of `delete_node` on a well-formed free chain:
the unlinked node becomes its first node. -/
theorem push_free_spec {s : BreadthFixedMap K V} {f : List Nat} {node : Nat}
    (hs : Seg s.store none f none) (hb : s.buffer_ = first_or f none)
    (hnd : f.Nodup) (hnf : node ∉ f) (hn : node < s.store.length)
    (hp : previous_of s.store node = none) :
    Seg (push_free s node).store none (node :: f) none ∧
    (push_free s node).store.length = s.store.length ∧
    (push_free s node).buffer_ = some node ∧
    (push_free s node).length_ = (s.length_ + SIZE_MOD - 1) % SIZE_MOD ∧
    (push_free s node).head_ = s.head_ ∧
    (push_free s node).tail_ = s.tail_ ∧
    (push_free s node).table_ = s.table_ ∧
    (push_free s node).MAX_ = s.MAX_ ∧
    (∀ q, key_of (push_free s node).store q = key_of s.store q) ∧
    (∀ q, q ∉ node :: f →
      previous_of (push_free s node).store q = previous_of s.store q ∧
      next_of (push_free s node).store q = next_of s.store q) := by
  cases f with
  | nil =>
    have hb0 : s.buffer_ = none := hb
    rw [push_free_none hb0]
    refine ⟨⟨by simpa using hn, ?_, ?_, trivial⟩, length_set_next _ _ _, rfl, rfl, rfl, rfl,
      rfl, rfl, fun q => key_of_set_next _ _ _ _, ?_⟩
    · show previous_of (set_next s.store node none) node = none
      rw [previous_of_set_next]; exact hp
    · exact next_of_set_next_self _ hn _
    · intro q hq
      have hqn : q ≠ node := fun e => hq (e ▸ List.mem_cons_self _ _)
      exact ⟨previous_of_set_next _ _ _ _, next_of_set_next_ne _ hqn _⟩
  | cons b r =>
    have hb0 : s.buffer_ = some b := hb
    rw [push_free_some hb0]
    have hne : node ≠ b := fun e => hnf (e ▸ List.mem_cons_self _ _)
    have hbr : b ∉ r := (List.nodup_cons.mp hnd).1
    refine ⟨⟨by simpa using hn, ?_, ?_, ?_⟩, by simp, rfl, rfl, rfl, rfl, rfl, rfl, ?_, ?_⟩
    · show previous_of (set_next (set_previous s.store b (some node)) node (some b)) node = none
      rw [previous_of_set_next, previous_of_set_previous_ne _ hne]; exact hp
    · exact next_of_set_next_self _ (by simpa using hn) _
    · exact Seg_set_next_frame (Seg_set_previous_first hs hbr _) hnf _
    · intro q
      show key_of (set_next (set_previous s.store b (some node)) node (some b)) q = _
      rw [key_of_set_next, key_of_set_previous]
    · intro q hq
      have hqn : q ≠ node := fun e => hq (e ▸ List.mem_cons_self _ _)
      have hqb : q ≠ b := fun e => hq (e ▸ List.mem_cons_of_mem _ (List.mem_cons_self _ _))
      show previous_of (set_next (set_previous s.store b (some node)) node (some b)) q = _ ∧
        next_of (set_next (set_previous s.store b (some node)) node (some b)) q = _
      rw [previous_of_set_next, previous_of_set_previous_ne _ hqb, next_of_set_next_ne _ hqn,
        next_of_set_previous]
      exact ⟨rfl, rfl⟩

theorem table_find_erase (t : List (K × Nat)) (key k : K) :
    table_find (table_erase t key) k = if k = key then none else table_find t k := by
  unfold table_erase
  induction t with
  | nil => simp [table_find]
  | cons e rest ih =>
    obtain ⟨a, q⟩ := e
    by_cases ha : a = key
    · subst ha
      simp only [List.filter, ne_eq, not_true_eq_false, decide_False, table_find]
      rw [ih]
      by_cases hk : k = a
      · simp [hk]
      · have : ¬ a = k := fun e => hk e.symm
        simp [hk, this]
    · simp only [List.filter, ne_eq, ha, not_false_eq_true, decide_True, table_find]
      rw [ih]
      by_cases hk : a = k
      · subst hk
        simp [ha]
      · simp [hk]

theorem table_find_insert {t : List (K × Nat)} {key : K} (ht : table_find t key = none)
    (node : Nat) (k : K) :
    table_find (table_insert t key node) k =
      if k = key then some node else table_find t k := by
  unfold table_insert
  rw [ht]
  simp only [table_find_append, table_find]
  by_cases hk : k = key
  · subst hk
    simp [ht]
  · have : ¬ key = k := fun e => hk e.symm
    simp [hk, this]

theorem Seg_lt {h : List (Node K V)} :
    ∀ (l : List Nat) (prev nxt : Option Nat), Seg h prev l nxt → ∀ q, q ∈ l → q < h.length := by
  intro l
  induction l with
  | nil => intro _ _ _ q hq; cases hq
  | cons a l ih =>
    intro prev nxt hs q hq
    rcases List.mem_cons.mp hq with rfl | hq
    · exact hs.1
    · exact ih _ _ hs.2.2.2 q hq

theorem key_of_isSome {h : List (Node K V)} {p : Nat} (hp : p < h.length) :
    ∃ k, key_of h p = some k := by
  unfold key_of
  rw [List.getElem?_eq_getElem hp]
  exact ⟨_, rfl⟩

theorem remove_node_eq {s : BreadthFixedMap K V} {node : Nat} {k : K}
    (hk : key_of (delete_node s node).store node = some k) :
    remove_node s node =
      { delete_node s node with table_ := table_erase (delete_node s node).table_ k } := by
  unfold key_of at hk
  cases hg : (delete_node s node).store[node]? with
  | none => simp [hg] at hk
  | some n =>
    simp only [hg, Option.map_some', Option.some.injEq] at hk
    subst hk
    unfold remove_node
    simp only [hg]

theorem nodup_remove_middle {l1 l2 f : List Nat} {node : Nat}
    (h : (l1 ++ node :: l2 ++ f).Nodup) : (l1 ++ l2 ++ node :: f).Nodup := by
  have hp : (l1 ++ l2 ++ node :: f).Perm (l1 ++ node :: l2 ++ f) := by
    have h1 : (l1 ++ l2 ++ node :: f).Perm (node :: (l1 ++ l2 ++ f)) := List.perm_middle
    have h2 : (l1 ++ node :: l2 ++ f).Perm (node :: (l1 ++ l2 ++ f)) := by
      have : l1 ++ node :: l2 ++ f = l1 ++ node :: (l2 ++ f) := by simp
      rw [this]
      have h3 : (l1 ++ node :: (l2 ++ f)).Perm (node :: (l1 ++ (l2 ++ f))) := List.perm_middle
      rw [List.append_assoc l1 l2 f]
      exact h3
    exact h1.trans h2.symm
  exact hp.nodup_iff.mpr h

theorem mem_remove_middle {l1 l2 : List Nat} {node : Nat} (hn : node ∉ l1 ++ l2) (p : Nat) :
    p ∈ l1 ++ l2 ↔ (p ∈ l1 ++ node :: l2 ∧ p ≠ node) := by
  simp only [List.mem_append, List.mem_cons]
  constructor
  · intro hp
    refine ⟨?_, ?_⟩
    · rcases hp with h | h
      · exact Or.inl h
      · exact Or.inr (Or.inr h)
    · rintro rfl
      exact hn (List.mem_append.mpr hp)
  · rintro ⟨h | h | h, hne⟩
    · exact Or.inl h
    · exact absurd h hne
    · exact Or.inr h

theorem size_dec {n m : Nat} (h1 : 0 < n) (h2 : n ≤ max m 1) (h3 : m < SIZE_MOD) :
    (n + SIZE_MOD - 1) % SIZE_MOD = n - 1 := by
  unfold SIZE_MOD at *
  have : n ≤ 18446744073709551616 := by
    rcases Nat.le_total m 1 with h | h
    · rw [max_eq_right h] at h2; omega
    · rw [max_eq_left h] at h2; omega
  omega

/-- The private `remove(Node*)` on a node of the recency list keeps the
representation invariant: the node moves from the list to the free chain. -/
theorem WF_remove_node {s : BreadthFixedMap K V} {l1 l2 f : List Nat} {node : Nat}
    (hw : WF s (l1 ++ node :: l2) f) :
    WF (remove_node s node) (l1 ++ l2) (node :: f) ∧
      (remove_node s node).MAX_ = s.MAX_ := by
  obtain ⟨hl, hh, ht, hf, hb, hnd, htb, hlen, hbd, hmx⟩ := hw
  have hndl : (l1 ++ node :: l2).Nodup := (List.nodup_append.mp hnd).1
  have hndf : f.Nodup := (List.nodup_append.mp hnd).2.1
  have hdis := (List.nodup_append.mp hnd).2.2
  have hnd2 := nodup_remove_middle hnd
  have hnode : node < s.store.length :=
    Seg_lt _ _ _ hl node (List.mem_append_right _ (List.mem_cons_self _ _))
  have hnf : node ∉ f := fun e => hdis (List.mem_append_right _ (List.mem_cons_self _ _)) e
  obtain ⟨a1, a2, a3, a4, a5, a6⟩ := pick_up_node_spec hl hh ht hndl
  obtain ⟨p1, p2, p3, p4, p5, p6⟩ := pick_up_node_frame s node
  have pl := store_length_pick_up_node s node
  have hf1 : Seg (pick_up_node s node).store none f none :=
    Seg_congr (Nat.le_of_eq pl.symm) f none none
      (fun q hq => a6 q (fun e => hdis e hq)) hf
  obtain ⟨b1, b2, b3, b4, b5, b6, b7, b8, b9, b10⟩ :=
    push_free_spec hf1 (p2.trans hb) hndf hnf (by rw [pl]; exact hnode) a4
  rw [← delete_node_eq] at b1 b2 b3 b4 b5 b6 b7 b8 b9 b10
  obtain ⟨k, hk⟩ := key_of_isSome hnode
  have hk3 : key_of (delete_node s node).store node = some k := by
    rw [b9, p6]; exact hk
  rw [remove_node_eq hk3]
  have hkey : ∀ q, key_of (delete_node s node).store q = key_of s.store q := fun q => by
    rw [b9, p6]
  have hn12 : node ∉ l1 ++ l2 := fun e =>
    (List.nodup_append.mp hnd2).2.2 e (List.mem_cons_self _ _)
  have hmem := mem_remove_middle hn12
  refine ⟨⟨?_, b5.trans a2, b6.trans a3, b1, b3, hnd2, ?_, ?_, ?_, ?_⟩, b8.trans p4⟩
  · refine Seg_congr (Nat.le_of_eq b2.symm) _ none none ?_ a1
    intro q hq
    exact b10 q (fun e => (List.nodup_append.mp hnd2).2.2 hq e)
  · intro k' p
    show table_find (table_erase (delete_node s node).table_ k) k' = some p ↔
      p ∈ l1 ++ l2 ∧ key_of (delete_node s node).store p = some k'
    rw [table_find_erase, b7, p1, hkey, hmem]
    have hnodek := (htb k node).mpr ⟨List.mem_append_right _ (List.mem_cons_self _ _), hk⟩
    by_cases hkk : k' = k
    · subst hkk
      simp only [if_true]
      constructor
      · intro h; cases h
      · rintro ⟨⟨hp1, hp2⟩, hp3⟩
        have := (htb k' p).mpr ⟨hp1, hp3⟩
        rw [hnodek] at this
        exact absurd (Option.some.inj this).symm hp2
    · simp only [hkk, if_false]
      rw [htb]
      constructor
      · rintro ⟨hp1, hp3⟩
        refine ⟨⟨hp1, ?_⟩, hp3⟩
        rintro rfl
        rw [hk] at hp3
        exact hkk (Option.some.inj hp3).symm
      · rintro ⟨⟨hp1, _⟩, hp3⟩
        exact ⟨hp1, hp3⟩
  · show (delete_node s node).length_ = (l1 ++ l2).length
    rw [b4, p3, hlen]
    have hpos : 0 < (l1 ++ node :: l2).length := by simp
    rw [size_dec hpos hbd hmx]
    simp
  · show (l1 ++ l2).length ≤ max (delete_node s node).MAX_ 1
    rw [b8, p4]
    refine Nat.le_trans ?_ hbd
    simp
  · show (delete_node s node).MAX_ < SIZE_MOD
    rw [b8, p4]; exact hmx

/-- Lines 225-227 of `get` restore the invariant when the list is not empty
after the node has been unlinked. -/
theorem WF_link_head {s : BreadthFixedMap K V} {l f : List Nat} {node : Nat}
    (hw : WFD s l f node) (hl : l ≠ []) : WF (link_head s node) (node :: l) f := by
  obtain ⟨h1, h2, h3, h4, h5, h6, h7, h8, h9, h10, h11, h12⟩ := hw
  have hnd := List.nodup_cons.mp h6
  have hnl : node ∉ l := fun e => hnd.1 (List.mem_append_left _ e)
  have hnf : node ∉ f := fun e => hnd.1 (List.mem_append_right _ e)
  have hndl := (List.nodup_append.mp hnd.2).1
  have hdis := (List.nodup_append.mp hnd.2).2.2
  obtain ⟨a1, a2, a3⟩ := link_head_spec h1 h2 hndl hnl h7 h8
  obtain ⟨b1, b2, b3, b4, b5, b6, b7, b8⟩ := link_head_frame s node
  refine ⟨a1, b6, ?_, ?_, b2.trans h5, h6, ?_, ?_, ?_, ?_⟩
  · rw [b5, h3, last_or_cons_of_ne_nil hl]
  · refine Seg_congr (Nat.le_of_eq a2.symm) f none none ?_ h4
    intro q hq
    refine a3 q ?_
    intro e
    rcases List.mem_cons.mp e with rfl | e
    · exact hnf hq
    · exact hdis e hq
  · intro k p
    rw [b1, b8]
    exact h9 k p
  · rw [b3, h10]; rfl
  · rw [b4]; exact h11
  · rw [b4]; exact h12

/-- Lines 274-277 of `add` restore the invariant. -/
theorem WF_add_front {s : BreadthFixedMap K V} {l f : List Nat} {node : Nat}
    (hw : WFD s l f node) : WF (add_front s node) (node :: l) f := by
  obtain ⟨h1, h2, h3, h4, h5, h6, h7, h8, h9, h10, h11, h12⟩ := hw
  have hnd := List.nodup_cons.mp h6
  have hnl : node ∉ l := fun e => hnd.1 (List.mem_append_left _ e)
  have hnf : node ∉ f := fun e => hnd.1 (List.mem_append_right _ e)
  have hndl := (List.nodup_append.mp hnd.2).1
  have hdis := (List.nodup_append.mp hnd.2).2.2
  obtain ⟨a1, a2, a3⟩ := link_head_spec h1 h2 hndl hnl h7 h8
  obtain ⟨b1, b2, b3, b4, b5, b6, b7, b8⟩ := link_head_frame s node
  obtain ⟨c1, c2, c3, c4, c5, c6⟩ := fix_tail_frame (link_head s node) node
  have ct := fix_tail_spec (s := link_head s node) (l := l) (b5.trans h3) node
  unfold add_front
  refine ⟨?_, c5.trans b6, ct, ?_, c2.trans (b2.trans h5), h6, ?_, ?_, ?_, ?_⟩
  · rw [c6]; exact a1
  · rw [c6]
    refine Seg_congr (Nat.le_of_eq a2.symm) f none none ?_ h4
    intro q hq
    refine a3 q ?_
    intro e
    rcases List.mem_cons.mp e with rfl | e
    · exact hnf hq
    · exact hdis e hq
  · intro k p
    rw [c1, c6, b1, b8]
    exact h9 k p
  · rw [c3, b3, h10]; rfl
  · rw [c4, b4]; exact h11
  · rw [c4, b4]; exact h12

theorem mem_middle_iff (l1 l2 : List Nat) (node p : Nat) :
    p ∈ l1 ++ node :: l2 ↔ p ∈ node :: (l1 ++ l2) := by
  simp only [List.mem_append, List.mem_cons]
  constructor
  · rintro (h | h | h)
    · exact Or.inr (Or.inl h)
    · exact Or.inl h
    · exact Or.inr (Or.inr h)
  · rintro (h | h | h)
    · exact Or.inr (Or.inl h)
    · exact Or.inl h
    · exact Or.inr (Or.inr h)

theorem nodup_pull_middle {l1 l2 f : List Nat} {node : Nat}
    (h : (l1 ++ node :: l2 ++ f).Nodup) : (node :: (l1 ++ l2 ++ f)).Nodup := by
  have h2 : (l1 ++ node :: l2 ++ f).Perm (node :: (l1 ++ l2 ++ f)) := by
    have e : l1 ++ node :: l2 ++ f = l1 ++ node :: (l2 ++ f) := by simp
    rw [e]
    have h3 : (l1 ++ node :: (l2 ++ f)).Perm (node :: (l1 ++ (l2 ++ f))) := List.perm_middle
    rw [List.append_assoc l1 l2 f]
    exact h3
  exact h2.nodup_iff.mp h

/-- Unlinking a node of the recency list with `pick_up_node`. -/
theorem WFD_pick_up_node {s : BreadthFixedMap K V} {l1 l2 f : List Nat} {node : Nat}
    (hw : WF s (l1 ++ node :: l2) f) :
    WFD (pick_up_node s node) (l1 ++ l2) f node := by
  obtain ⟨hl, hh, ht, hf, hb, hnd, htb, hlen, hbd, hmx⟩ := hw
  have hndl : (l1 ++ node :: l2).Nodup := (List.nodup_append.mp hnd).1
  have hdis := (List.nodup_append.mp hnd).2.2
  have hnode : node < s.store.length :=
    Seg_lt _ _ _ hl node (List.mem_append_right _ (List.mem_cons_self _ _))
  obtain ⟨a1, a2, a3, a4, a5, a6⟩ := pick_up_node_spec hl hh ht hndl
  obtain ⟨p1, p2, p3, p4, p5, p6⟩ := pick_up_node_frame s node
  have pl := store_length_pick_up_node s node
  refine ⟨a1, a2, a3, ?_, p2.trans hb, nodup_pull_middle hnd, by rw [pl]; exact hnode, a4,
    ?_, ?_, ?_, by rw [p4]; exact hmx⟩
  · exact Seg_congr (Nat.le_of_eq pl.symm) f none none
      (fun q hq => a6 q (fun e => hdis e hq)) hf
  · intro k p
    rw [p1, p6, ← mem_middle_iff]
    exact htb k p
  · rw [p3, hlen]
    simp only [List.length_append, List.length_cons]
    omega
  · rw [p4]
    refine Nat.le_trans (Nat.le_of_eq ?_) hbd
    simp only [List.length_append, List.length_cons]
    omega

theorem next_of_write_of (h : List (Node K V)) (p q : Nat) (f : Node K V → Node K V)
    (hf : ∀ n, (f n).next_ = n.next_) : next_of (write h p f) q = next_of h q := by
  unfold next_of
  rw [getElem?_write]
  by_cases hq : q = p
  · simp only [hq, if_true]
    cases h[p]? with
    | none => rfl
    | some n => exact hf n
  · simp only [hq, if_false]

theorem previous_of_write_of (h : List (Node K V)) (p q : Nat) (f : Node K V → Node K V)
    (hf : ∀ n, (f n).previous_ = n.previous_) :
    previous_of (write h p f) q = previous_of h q := by
  unfold previous_of
  rw [getElem?_write]
  by_cases hq : q = p
  · simp only [hq, if_true]
    cases h[p]? with
    | none => rfl
    | some n => exact hf n
  · simp only [hq, if_false]

theorem Seg_write_of {h : List (Node K V)} {l : List Nat} {prev nxt : Option Nat}
    (hs : Seg h prev l nxt) (p : Nat) (f : Node K V → Node K V)
    (hf1 : ∀ n, (f n).previous_ = n.previous_) (hf2 : ∀ n, (f n).next_ = n.next_) :
    Seg (write h p f) prev l nxt :=
  Seg_congr (Nat.le_of_eq (length_write h p f).symm) l prev nxt
    (fun q _ => ⟨previous_of_write_of h p q f hf1, next_of_write_of h p q f hf2⟩) hs

theorem previous_of_write_value (h : List (Node K V)) (p q : Nat) (v : V) :
    previous_of (write h p (fun n => { n with value_ := v })) q = previous_of h q :=
  previous_of_write_of h p q _ (fun _ => rfl)

theorem key_of_write_value (h : List (Node K V)) (p q : Nat) (v : V) :
    key_of (write h p (fun n => { n with value_ := v })) q = key_of h q :=
  key_of_write_links h p q _ (fun _ => rfl)

/-- The assignment `node->value_ = value` (line 266) changes no link and no
key. -/
theorem WFD_write_value {s : BreadthFixedMap K V} {l f : List Nat} {node : Nat}
    (hw : WFD s l f node) (value : V) :
    WFD { s with store := write s.store node (fun n => { n with value_ := value }) }
      l f node := by
  obtain ⟨h1, h2, h3, h4, h5, h6, h7, h8, h9, h10, h11, h12⟩ := hw
  refine ⟨Seg_write_of h1 _ _ (fun _ => rfl) (fun _ => rfl), h2, h3,
    Seg_write_of h4 _ _ (fun _ => rfl) (fun _ => rfl), h5, h6, ?_, ?_, ?_, h10, h11, h12⟩
  · show node < (write s.store node _).length
    rw [length_write]; exact h7
  · show previous_of (write s.store node _) node = none
    rw [previous_of_write_value]; exact h8
  · intro k p
    show table_find s.table_ k = some p ↔
      p ∈ node :: l ∧ key_of (write s.store node _) p = some k
    rw [key_of_write_value]
    exact h9 k p

theorem mem_split {l : List Nat} {a : Nat} (h : a ∈ l) : ∃ l1 l2, l = l1 ++ a :: l2 :=
  List.append_of_mem h

/-- `get` of a present key keeps the representation invariant when at least two
entries are held. -/
theorem WF_get {s : BreadthFixedMap K V} {l f : List Nat} (hw : WF s l f)
    {key : K} (hf : find s key = true) (h2 : 2 ≤ size s) :
    ∃ v s1 l1, get s key = some (v, s1) ∧ WF s1 l1 f ∧ l1.length = l.length ∧
      s1.MAX_ = s.MAX_ := by
  unfold find at hf
  obtain ⟨node, hnode⟩ := Option.isSome_iff_exists.mp hf
  have hm : node ∈ l := ((hw.table key node).mp hnode).1
  obtain ⟨l1, l2, rfl⟩ := mem_split hm
  have hd := WFD_pick_up_node hw
  have hne : l1 ++ l2 ≠ [] := by
    intro e
    have hlen : s.length_ = (l1 ++ node :: l2).length := hw.length
    have : (l1 ++ l2).length = 0 := by rw [e]; rfl
    simp only [size] at h2
    simp only [List.length_append, List.length_cons] at hlen this
    omega
  have hwf := WF_link_head hd hne
  have hv : node < (link_head (pick_up_node s node) node).store.length :=
    Seg_lt _ _ _ hwf.list node (List.mem_cons_self _ _)
  unfold get
  rw [hnode]
  simp only
  rw [List.getElem?_eq_getElem hv]
  refine ⟨_, _, node :: (l1 ++ l2), rfl, hwf, ?_, ?_⟩
  · simp only [List.length_append, List.length_cons]
    omega
  · rw [(link_head_frame _ _).2.2.2.1]
    exact (pick_up_node_frame s node).2.2.2.1

/-- The public `remove` keeps the representation invariant. -/
theorem WF_remove {s : BreadthFixedMap K V} {l f : List Nat} (hw : WF s l f) (key : K) :
    ∃ l1 f1, WF (remove s key) l1 f1 ∧ l1.length ≤ l.length ∧
      (remove s key).MAX_ = s.MAX_ := by
  unfold remove
  cases hf : table_find s.table_ key with
  | none => exact ⟨l, f, hw, Nat.le_refl _, rfl⟩
  | some node =>
    have hm : node ∈ l := ((hw.table key node).mp hf).1
    obtain ⟨l1, l2, rfl⟩ := mem_split hm
    obtain ⟨h1, h2⟩ := WF_remove_node hw
    refine ⟨l1 ++ l2, node :: f, h1, ?_, h2⟩
    simp only [List.length_append, List.length_cons]
    omega

theorem new_node_none {s : BreadthFixedMap K V} (hb : s.buffer_ = none) (key : K) (value : V) :
    new_node s key value =
      (s.store.length,
       { s with
          store := set_previous (set_next (s.store ++ [⟨key, value, none, none⟩])
            s.store.length none) s.store.length none,
          length_ := (s.length_ + 1) % SIZE_MOD }) := by
  rw [new_node_eq]
  unfold take_node
  simp only [hb]

theorem new_node_some_none {s : BreadthFixedMap K V} {b : Nat} (hb : s.buffer_ = some b)
    (hx : next_of s.store b = none) (key : K) (value : V) :
    new_node s key value =
      (b,
       { s with
          store := set_previous (set_next
            (write s.store b (fun n => { n with key_ := key, value_ := value })) b none) b none,
          buffer_ := none,
          length_ := (s.length_ + 1) % SIZE_MOD }) := by
  rw [new_node_eq]
  unfold take_node
  simp only [hb, hx]

theorem new_node_some_some {s : BreadthFixedMap K V} {b b1 : Nat} (hb : s.buffer_ = some b)
    (hx : next_of s.store b = some b1) (key : K) (value : V) :
    new_node s key value =
      (b,
       { s with
          store := set_previous (set_next
            (write (set_previous s.store b1 none) b
              (fun n => { n with key_ := key, value_ := value })) b none) b none,
          buffer_ := some b1,
          length_ := (s.length_ + 1) % SIZE_MOD }) := by
  rw [new_node_eq]
  unfold take_node
  simp only [hb, hx]

theorem next_of_append_lt (h : List (Node K V)) (x : Node K V) {q : Nat} (hq : q < h.length) :
    next_of (h ++ [x]) q = next_of h q := by
  unfold next_of
  rw [List.getElem?_append_left hq]

theorem previous_of_append_lt (h : List (Node K V)) (x : Node K V) {q : Nat}
    (hq : q < h.length) : previous_of (h ++ [x]) q = previous_of h q := by
  unfold previous_of
  rw [List.getElem?_append_left hq]

theorem key_of_append_lt (h : List (Node K V)) (x : Node K V) {q : Nat} (hq : q < h.length) :
    key_of (h ++ [x]) q = key_of h q := by
  unfold key_of
  rw [List.getElem?_append_left hq]

theorem Seg_append_node {h : List (Node K V)} {l : List Nat} {prev nxt : Option Nat}
    (hs : Seg h prev l nxt) (x : Node K V) : Seg (h ++ [x]) prev l nxt := by
  refine Seg_congr (by simp) l prev nxt ?_ hs
  intro q hq
  have hlt := Seg_lt l prev nxt hs q hq
  exact ⟨previous_of_append_lt h x hlt, next_of_append_lt h x hlt⟩

theorem key_of_write_key (h : List (Node K V)) {p : Nat} (hp : p < h.length) (k : K) (v : V) :
    key_of (write h p (fun n => { n with key_ := k, value_ := v })) p = some k := by
  unfold key_of
  rw [getElem?_write]
  simp [List.getElem?_eq_getElem hp]

theorem key_of_write_ne (h : List (Node K V)) {p q : Nat} (hq : q ≠ p)
    (f : Node K V → Node K V) : key_of (write h p f) q = key_of h q := by
  unfold key_of
  rw [getElem?_write]
  simp [hq]

theorem Seg_write_key {h : List (Node K V)} {l : List Nat} {prev nxt : Option Nat}
    (hs : Seg h prev l nxt) (p : Nat) (k : K) (v : V) :
    Seg (write h p (fun n => { n with key_ := k, value_ := v })) prev l nxt :=
  Seg_write_of hs p _ (fun _ => rfl) (fun _ => rfl)

/-- The effect of `new_node` under the representation invariant: it returns a
node outside the recency list, with the given key and null links, taken from
the free chain when that is not empty and newly allocated otherwise. -/
theorem new_node_spec {s : BreadthFixedMap K V} {l f : List Nat} (hw : WF s l f)
    (key : K) (value : V) :
    ∃ f1 : List Nat,
      Seg (new_node s key value).2.store none l none ∧
      Seg (new_node s key value).2.store none f1 none ∧
      (new_node s key value).2.buffer_ = first_or f1 none ∧
      ((new_node s key value).1 :: (l ++ f1)).Nodup ∧
      (new_node s key value).1 < (new_node s key value).2.store.length ∧
      previous_of (new_node s key value).2.store (new_node s key value).1 = none ∧
      key_of (new_node s key value).2.store (new_node s key value).1 = some key ∧
      (∀ q, q ∈ l → key_of (new_node s key value).2.store q = key_of s.store q) ∧
      (new_node s key value).2.head_ = s.head_ ∧
      (new_node s key value).2.tail_ = s.tail_ ∧
      (new_node s key value).2.table_ = s.table_ ∧
      (new_node s key value).2.length_ = (s.length_ + 1) % SIZE_MOD ∧
      (new_node s key value).2.MAX_ = s.MAX_ := by
  obtain ⟨hl, hh, ht, hf, hb, hnd, htb, hlen, hbd, hmx⟩ := hw
  have hndl := (List.nodup_append.mp hnd).1
  have hndf := (List.nodup_append.mp hnd).2.1
  have hdis := (List.nodup_append.mp hnd).2.2
  cases f with
  | nil =>
    have hb0 : s.buffer_ = none := hb
    rw [new_node_none hb0]
    have hfresh : s.store.length ∉ l := fun e =>
      Nat.lt_irrefl _ (Seg_lt l none none hl _ e)
    have hlt : s.store.length < (s.store ++ [(⟨key, value, none, none⟩ : Node K V)]).length := by
      simp
    refine ⟨[], ?_, trivial, hb0, ?_, ?_, ?_, ?_, ?_, rfl, rfl, rfl, rfl, rfl⟩
    · exact Seg_set_previous_frame (Seg_set_next_frame (Seg_append_node hl _) hfresh _) hfresh _
    · simpa using hndl.cons hfresh
    · simp
    · exact previous_of_set_previous_self _ (by simp) _
    · show key_of (set_previous (set_next (s.store ++ [_]) s.store.length none)
        s.store.length none) s.store.length = some key
      rw [key_of_set_previous, key_of_set_next]
      unfold key_of
      simp
    · intro q hq
      show key_of (set_previous (set_next (s.store ++ [_]) s.store.length none)
        s.store.length none) q = _
      rw [key_of_set_previous, key_of_set_next]
      exact key_of_append_lt _ _ (Seg_lt l none none hl q hq)
  | cons b f1 =>
    have hb0 : s.buffer_ = some b := hb
    obtain ⟨hbv, _, hbx, hf1⟩ := hf
    have hbl : b ∉ l := fun e => hdis e (List.mem_cons_self _ _)
    have hbf : b ∉ f1 := (List.nodup_cons.mp hndf).1
    have hnd1 : (b :: (l ++ f1)).Nodup := by
      have hp : (l ++ b :: f1).Perm (b :: (l ++ f1)) := List.perm_middle
      exact hp.nodup_iff.mp hnd
    cases f1 with
    | nil =>
      have hx0 : next_of s.store b = none := hbx
      rw [new_node_some_none hb0 hx0]
      have hlt : b < (write s.store b (fun n => { n with key_ := key, value_ := value })).length := by
        rw [length_write]; exact hbv
      refine ⟨[], ?_, trivial, rfl, hnd1, ?_, ?_, ?_, ?_, rfl, rfl, rfl, rfl, rfl⟩
      · exact Seg_set_previous_frame (Seg_set_next_frame (Seg_write_key hl _ _ _) hbl _) hbl _
      · simpa using hlt
      · exact previous_of_set_previous_self _ (by simpa using hlt) _
      · show key_of (set_previous (set_next (write s.store b _) b none) b none) b = some key
        rw [key_of_set_previous, key_of_set_next]
        exact key_of_write_key _ hbv _ _
      · intro q hq
        have hqb : q ≠ b := fun e => hbl (e ▸ hq)
        show key_of (set_previous (set_next (write s.store b _) b none) b none) q = _
        rw [key_of_set_previous, key_of_set_next]
        exact key_of_write_ne _ hqb _
    | cons b1 r =>
      have hx0 : next_of s.store b = some b1 := hbx
      rw [new_node_some_some hb0 hx0]
      have hb1l : b1 ∉ l := fun e =>
        hdis e (List.mem_cons_of_mem _ (List.mem_cons_self _ _))
      have hb1r : b1 ∉ r := (List.nodup_cons.mp (List.nodup_cons.mp hndf).2).1
      have hlt : b < (write (set_previous s.store b1 none) b
          (fun n => { n with key_ := key, value_ := value })).length := by
        rw [length_write, length_set_previous]; exact hbv
      refine ⟨b1 :: r, ?_, ?_, rfl, hnd1, ?_, ?_, ?_, ?_, rfl, rfl, rfl, rfl, rfl⟩
      · exact Seg_set_previous_frame (Seg_set_next_frame
          (Seg_write_key (Seg_set_previous_frame hl hb1l _) _ _ _) hbl _) hbl _
      · exact Seg_set_previous_frame (Seg_set_next_frame
          (Seg_write_key (Seg_set_previous_first hf1 hb1r _) _ _ _) hbf _) hbf _
      · simpa using hlt
      · exact previous_of_set_previous_self _ (by simpa using hlt) _
      · show key_of (set_previous (set_next (write (set_previous s.store b1 none) b _) b none)
          b none) b = some key
        rw [key_of_set_previous, key_of_set_next]
        exact key_of_write_key _ (by simpa using hbv) _ _
      · intro q hq
        have hqb : q ≠ b := fun e => hbl (e ▸ hq)
        show key_of (set_previous (set_next (write (set_previous s.store b1 none) b _) b none)
          b none) q = _
        rw [key_of_set_previous, key_of_set_next, key_of_write_ne _ hqb, key_of_set_previous]

theorem evict_loop_exit {s : BreadthFixedMap K V}
    (h : ¬ s.MAX_ ≤ s.length_ ∨ s.tail_ = none) (fuel : Nat) :
    evict_loop fuel s = some s := by
  cases fuel with
  | zero =>
    unfold evict_loop
    rcases h with h | h
    · simp [h]
    · simp [h]
  | succ n =>
    unfold evict_loop
    rcases h with h | h
    · simp [h]
    · simp [h]

theorem last_or_mem {l : List Nat} {t : Nat} (h : last_or l none = some t) : t ∈ l := by
  rcases eq_nil_or_snoc l with rfl | ⟨l0, p, rfl⟩
  · cases h
  · rw [last_or_concat] at h
    cases h
    exact List.mem_append_right _ (List.mem_singleton_self _)

theorem delete_node_table (s : BreadthFixedMap K V) (node : Nat) :
    (delete_node s node).table_ = s.table_ := by
  rw [delete_node_eq]
  unfold push_free
  simp only
  split <;> exact (pick_up_node_frame s node).1

theorem remove_node_absent {s : BreadthFixedMap K V} {k : K}
    (hk : table_find s.table_ k = none) (node : Nat) :
    table_find (remove_node s node).table_ k = none := by
  unfold remove_node
  simp only
  split
  · show table_find (table_erase (delete_node s node).table_ _) k = none
    rw [table_find_erase, delete_node_table]
    split
    · rfl
    · exact hk
  · rw [delete_node_table]; exact hk

/-- Under the representation invariant the eviction loop of `add` stops after
at most one iteration and leaves room for one more node. -/
theorem WF_evict_loop {s : BreadthFixedMap K V} {l f : List Nat} (hw : WF s l f)
    {fuel : Nat} (hfuel : 1 ≤ fuel) :
    ∃ s0 l0 f0, evict_loop fuel s = some s0 ∧ WF s0 l0 f0 ∧
      l0.length + 1 ≤ max s.MAX_ 1 ∧ s0.MAX_ = s.MAX_ ∧
      (∀ k, table_find s.table_ k = none → table_find s0.table_ k = none) := by
  obtain ⟨n, rfl⟩ : ∃ n, fuel = n + 1 := ⟨fuel - 1, by omega⟩
  by_cases hc : s.MAX_ ≤ s.length_
  · cases htl : s.tail_ with
    | none =>
      have hl : l = [] := last_or_eq_none (hw.tail.symm.trans htl)
      subst hl
      refine ⟨s, [], f, evict_loop_exit (Or.inr htl) _, hw, ?_, rfl, fun _ h => h⟩
      simp
    | some t =>
      have hm : t ∈ l := last_or_mem (hw.tail.symm.trans htl)
      obtain ⟨l1, l2, rfl⟩ := mem_split hm
      obtain ⟨h1, h2⟩ := WF_remove_node hw
      have hlen : s.length_ = (l1 ++ t :: l2).length := hw.length
      have hbd : (l1 ++ t :: l2).length ≤ max s.MAX_ 1 := hw.bound
      have hlen1 : l1.length + l2.length + 1 ≤ max s.MAX_ 1 := by
        simp only [List.length_append, List.length_cons] at hbd
        omega
      have hexit : ¬ (remove_node s t).MAX_ ≤ (remove_node s t).length_ ∨
          (remove_node s t).tail_ = none := by
        rw [h2, h1.length]
        rcases Nat.eq_zero_or_pos s.MAX_ with h0 | hpos
        · right
          rw [h0] at hlen1
          have hnil : l1 ++ l2 = [] := by
            apply List.eq_nil_of_length_eq_zero
            simp only [List.length_append]
            have : max 0 1 = 1 := rfl
            omega
          rw [h1.tail, hnil]
          rfl
        · left
          have : max s.MAX_ 1 = s.MAX_ := max_eq_left hpos
          simp only [List.length_append]
          omega
      refine ⟨remove_node s t, l1 ++ l2, t :: f, ?_, h1, ?_, h2,
        fun k hk => remove_node_absent hk t⟩
      · unfold evict_loop
        simp only [hc, if_true, htl]
        exact evict_loop_exit hexit n
      · simp only [List.length_append]
        exact hlen1
  · refine ⟨s, l, f, evict_loop_exit (Or.inl hc) _, hw, ?_, rfl, fun _ h => h⟩
    have := hw.length
    have h1 : s.length_ < s.MAX_ := Nat.lt_of_not_le hc
    have h2 : s.MAX_ ≤ max s.MAX_ 1 := le_max_left _ _
    omega

theorem size_inc {n m : Nat} (h2 : n + 1 ≤ max m 1) (h3 : m < SIZE_MOD) :
    (n + 1) % SIZE_MOD = n + 1 := by
  unfold SIZE_MOD at *
  have : n + 1 < 18446744073709551616 := by
    rcases Nat.le_total m 1 with h | h
    · rw [max_eq_right h] at h2; omega
    · rw [max_eq_left h] at h2; omega
  exact Nat.mod_eq_of_lt this

/-- `add` of an absent key keeps the representation invariant and puts the new
node at the head of the recency list. -/
theorem WF_add_absent {s : BreadthFixedMap K V} {l f : List Nat} (hw : WF s l f)
    {key : K} (hk : table_find s.table_ key = none) {fuel : Nat} (hfuel : 1 ≤ fuel)
    (value : V) :
    ∃ s1 node l0 f1, add fuel s key value = some s1 ∧ WF s1 (node :: l0) f1 ∧
      key_of s1.store node = some key ∧ s1.MAX_ = s.MAX_ := by
  obtain ⟨s0, l0, f0, he, hw0, hroom, hmax0, habs⟩ := WF_evict_loop hw hfuel
  have hk0 := habs key hk
  obtain ⟨f1, a1, a2, a3, a4, a5, a6, a7, a8, a9, a10, a11, a12, a13⟩ :=
    new_node_spec hw0 key value
  generalize hr : new_node s0 key value = r at a1 a2 a3 a4 a5 a6 a7 a8 a9 a10 a11 a12 a13
  have hd : WFD ({ r.2 with table_ := table_insert r.2.table_ key r.1 }) l0 f1 r.1 := by
    refine ⟨a1, a9.trans hw0.head, a10.trans hw0.tail, a2, a3, a4, a5, a6, ?_, ?_, ?_, ?_⟩
    · intro k p
      show table_find (table_insert r.2.table_ key r.1) k = some p ↔
        p ∈ r.1 :: l0 ∧ key_of r.2.store p = some k
      rw [a11, table_find_insert hk0]
      have hrl : r.1 ∉ l0 := fun e =>
        (List.nodup_cons.mp a4).1 (List.mem_append_left _ e)
      by_cases hkk : k = key
      · subst hkk
        simp only [if_true, Option.some.injEq]
        constructor
        · rintro rfl
          exact ⟨List.mem_cons_self _ _, a7⟩
        · rintro ⟨hp, hpk⟩
          rcases List.mem_cons.mp hp with h | h
          · exact h.symm
          · rw [a8 p h] at hpk
            have := (hw0.table k p).mpr ⟨h, hpk⟩
            rw [hk0] at this
            cases this
      · simp only [hkk, if_false]
        rw [hw0.table]
        constructor
        · rintro ⟨hp, hpk⟩
          exact ⟨List.mem_cons_of_mem _ hp, (a8 p hp).trans hpk⟩
        · rintro ⟨hp, hpk⟩
          rcases List.mem_cons.mp hp with h | h
          · subst h
            rw [a7] at hpk
            exact absurd (Option.some.inj hpk).symm hkk
          · exact ⟨h, (a8 p h).symm.trans hpk⟩
    · show r.2.length_ = l0.length + 1
      rw [a12, hw0.length]
      exact size_inc (by rw [hmax0]; exact hroom) hw0.max_lt
    · show l0.length + 1 ≤ max r.2.MAX_ 1
      rw [a13, hmax0]; exact hroom
    · show r.2.MAX_ < SIZE_MOD
      rw [a13]; exact hw0.max_lt
  refine ⟨_, r.1, l0, f1, ?_, WF_add_front hd, ?_, ?_⟩
  · unfold add
    rw [hk]
    simp only [he, hr]
    rfl
  · rw [(add_front_frame _ _).2.2.2.2.2.2]
    exact a7
  · rw [(add_front_frame _ _).2.2.2.1]
    exact a13.trans hmax0

theorem WF_mk_empty {max : Nat} (hmax : max < SIZE_MOD) :
    WF (mk_empty max : BreadthFixedMap K V) [] [] := by
  refine ⟨trivial, rfl, rfl, trivial, rfl, List.nodup_nil, ?_, rfl, ?_, hmax⟩
  · intro k p
    simp [mk_empty, table_find]
  · simp

/-- `add` keeps the representation invariant, returns within one iteration of
the eviction loop, and leaves the node of the key at the head of the list. -/
theorem WF_add {s : BreadthFixedMap K V} {l f : List Nat} (hw : WF s l f)
    {fuel : Nat} (hfuel : 1 ≤ fuel) (key : K) (value : V) :
    ∃ s1 node l0 f1, add fuel s key value = some s1 ∧ WF s1 (node :: l0) f1 ∧
      key_of s1.store node = some key ∧ s1.MAX_ = s.MAX_ := by
  cases hf : table_find s.table_ key with
  | none => exact WF_add_absent hw hf hfuel value
  | some node =>
    have hm := (hw.table key node).mp hf
    obtain ⟨l1, l2, rfl⟩ := mem_split hm.1
    have hd := WFD_write_value (WFD_pick_up_node hw) value
    refine ⟨_, node, l1 ++ l2, f, add_of_find hf fuel value, WF_add_front hd, ?_, ?_⟩
    · rw [(add_front_frame _ _).2.2.2.2.2.2]
      show key_of (write (pick_up_node s node).store node _) node = some key
      rw [key_of_write_value, (pick_up_node_frame s node).2.2.2.2.2]
      exact hm.2
    · rw [(add_front_frame _ _).2.2.2.1]
      exact (pick_up_node_frame s node).2.2.2.1

theorem WF_step {s : BreadthFixedMap K V} {l f : List Nat} (hw : WF s l f)
    {fuel : Nat} (hfuel : 1 ≤ fuel) (c : Call K V) (hs : safe_call s c = true) :
    ∃ s1 l1 f1, step fuel s c = some s1 ∧ WF s1 l1 f1 ∧ s1.MAX_ = s.MAX_ := by
  cases c with
  | add key value =>
    obtain ⟨s1, node, l0, f1, h1, h2, _, h4⟩ := WF_add hw hfuel key value
    exact ⟨s1, node :: l0, f1, h1, h2, h4⟩
  | get key =>
    simp only [safe_call, Bool.and_eq_true, decide_eq_true_eq] at hs
    obtain ⟨v, s1, l1, h1, h2, _, h4⟩ := WF_get hw hs.1 hs.2
    refine ⟨s1, l1, f, ?_, h2, h4⟩
    simp only [step, h1, Option.map_some']
  | remove key =>
    obtain ⟨l1, f1, h1, _, h3⟩ := WF_remove hw key
    exact ⟨_, l1, f1, rfl, h1, h3⟩
  | find key => exact ⟨s, l, f, rfl, hw, rfl⟩
  | size => exact ⟨s, l, f, rfl, hw, rfl⟩

theorem WF_run {fuel : Nat} (hfuel : 1 ≤ fuel) (cs : List (Call K V)) :
    ∀ {s : BreadthFixedMap K V} {l f : List Nat}, WF s l f → safe_run fuel s cs = true →
      ∃ s1 l1 f1, run fuel s cs = some s1 ∧ WF s1 l1 f1 ∧ s1.MAX_ = s.MAX_ := by
  induction cs with
  | nil =>
    intro s l f hw _
    exact ⟨s, l, f, rfl, hw, rfl⟩
  | cons c cs ih =>
    intro s l f hw hs
    simp only [safe_run, Bool.and_eq_true] at hs
    obtain ⟨s1, l1, f1, h1, h2, h3⟩ := WF_step hw hfuel c hs.1
    have hs2 := hs.2
    rw [h1] at hs2
    obtain ⟨s2, l2, f2, g1, g2, g3⟩ := ih h2 hs2
    refine ⟨s2, l2, f2, ?_, g2, g3.trans h3⟩
    simp only [run, h1]
    exact g1

theorem safe_run_take (fuel : Nat) (cs : List (Call K V)) :
    ∀ (s : BreadthFixedMap K V) (n : Nat), safe_run fuel s cs = true →
      safe_run fuel s (cs.take n) = true := by
  induction cs with
  | nil =>
    intro s n h
    simp [safe_run]
  | cons c cs ih =>
    intro s n h
    cases n with
    | zero => simp [safe_run]
    | succ m =>
      simp only [safe_run, Bool.and_eq_true] at h
      simp only [List.take_succ_cons, safe_run, Bool.and_eq_true]
      refine ⟨h.1, ?_⟩
      cases hst : step fuel s c with
      | none => rfl
      | some s1 =>
        have h2 := h.2
        rw [hst] at h2
        exact ih s1 m h2

/-- More iterations allowed do not change the result of the eviction loop. -/
theorem evict_loop_mono (fuel : Nat) : ∀ {s s1 : BreadthFixedMap K V},
    evict_loop fuel s = some s1 → evict_loop (fuel + 1) s = some s1 := by
  induction fuel with
  | zero =>
    intro s s1 h
    unfold evict_loop at h
    split at h
    · split at h
      · cases h
      · rename_i ht
        cases h
        exact evict_loop_exit (Or.inr ht) _
    · rename_i hc
      cases h
      exact evict_loop_exit (Or.inl hc) _
  | succ n ih =>
    intro s s1 h
    unfold evict_loop at h
    unfold evict_loop
    split at h
    · rename_i hc
      simp only [hc, if_true]
      split at h
      · rename_i t ht
        exact ih h
      · exact h
    · rename_i hc
      simp only [hc, if_false]
      exact h

theorem evict_loop_mono_le {fuel fuel1 : Nat} (hle : fuel ≤ fuel1)
    {s s1 : BreadthFixedMap K V} (h : evict_loop fuel s = some s1) :
    evict_loop fuel1 s = some s1 := by
  induction hle with
  | refl => exact h
  | step _ ih => exact evict_loop_mono _ ih

theorem add_mono {fuel fuel1 : Nat} (hle : fuel ≤ fuel1) {s s1 : BreadthFixedMap K V}
    {key : K} {value : V} (h : add fuel s key value = some s1) :
    add fuel1 s key value = some s1 := by
  unfold add at h
  unfold add
  split
  · rename_i node hf
    simp only [hf] at h
    exact h
  · rename_i hf
    simp only [hf] at h
    cases he : evict_loop fuel s with
    | none => simp [he] at h
    | some s0 =>
      rw [evict_loop_mono_le hle he]
      simp only [he] at h
      exact h

theorem step_mono {fuel fuel1 : Nat} (hle : fuel ≤ fuel1) {s s1 : BreadthFixedMap K V}
    {c : Call K V} (h : step fuel s c = some s1) : step fuel1 s c = some s1 := by
  cases c with
  | add key value => exact add_mono hle h
  | get key => exact h
  | remove key => exact h
  | find key => exact h
  | size => exact h

/-- A state reached with some bound on the eviction loops is reached with any
larger bound. -/
theorem run_mono {fuel fuel1 : Nat} (hle : fuel ≤ fuel1) (cs : List (Call K V)) :
    ∀ {s s1 : BreadthFixedMap K V}, run fuel s cs = some s1 → run fuel1 s cs = some s1 := by
  induction cs with
  | nil => intro s s1 h; exact h
  | cons c cs ih =>
    intro s s1 h
    unfold run at h
    unfold run
    cases hs : step fuel s c with
    | none => simp [hs] at h
    | some s2 =>
      rw [step_mono hle hs]
      simp only [hs] at h
      exact ih h

theorem delete_node_counters (s : BreadthFixedMap K V) (node : Nat) :
    (delete_node s node).length_ = (s.length_ + SIZE_MOD - 1) % SIZE_MOD ∧
    (delete_node s node).MAX_ = s.MAX_ := by
  rw [delete_node_eq]
  obtain ⟨_, _, p3, p4, _, _⟩ := pick_up_node_frame s node
  unfold push_free
  simp only
  split <;> simp [p3, p4]

theorem remove_node_counters (s : BreadthFixedMap K V) (node : Nat) :
    (remove_node s node).length_ = (s.length_ + SIZE_MOD - 1) % SIZE_MOD ∧
    (remove_node s node).MAX_ = s.MAX_ := by
  unfold remove_node
  simp only
  split
  · exact delete_node_counters s node
  · exact delete_node_counters s node

theorem new_node_counters (s : BreadthFixedMap K V) (key : K) (value : V) :
    (new_node s key value).2.length_ = (s.length_ + 1) % SIZE_MOD ∧
    (new_node s key value).2.MAX_ = s.MAX_ := by
  rw [new_node_eq]
  unfold take_node
  simp only
  split
  · split <;> exact ⟨rfl, rfl⟩
  · exact ⟨rfl, rfl⟩

theorem size_mod_pos : 0 < SIZE_MOD := by
  unfold SIZE_MOD
  omega

theorem evict_loop_counters (fuel : Nat) : ∀ {s s1 : BreadthFixedMap K V},
    evict_loop fuel s = some s1 → s.length_ < SIZE_MOD →
      s1.MAX_ = s.MAX_ ∧ s1.length_ < SIZE_MOD := by
  induction fuel with
  | zero =>
    intro s s1 h hl
    unfold evict_loop at h
    split at h
    · split at h
      · cases h
      · cases h; exact ⟨rfl, hl⟩
    · cases h; exact ⟨rfl, hl⟩
  | succ n ih =>
    intro s s1 h hl
    unfold evict_loop at h
    split at h
    · split at h
      · rename_i t ht
        obtain ⟨c1, c2⟩ := remove_node_counters s t
        have := ih h (by rw [c1]; exact Nat.mod_lt _ size_mod_pos)
        exact ⟨this.1.trans c2, this.2⟩
      · cases h; exact ⟨rfl, hl⟩
    · cases h; exact ⟨rfl, hl⟩

theorem add_counters {fuel : Nat} {s s1 : BreadthFixedMap K V} {key : K} {value : V}
    (ha : add fuel s key value = some s1) (hl : s.length_ < SIZE_MOD) :
    s1.MAX_ = s.MAX_ ∧ s1.length_ < SIZE_MOD := by
  unfold add at ha
  split at ha
  · rename_i node hf
    cases ha
    obtain ⟨_, _, a3, a4, _, _, _⟩ := add_front_frame
      ({ pick_up_node s node with
        store := write (pick_up_node s node).store node (fun n => { n with value_ := value }) })
      node
    obtain ⟨_, _, p3, p4, _, _⟩ := pick_up_node_frame s node
    change (add_front _ node).MAX_ = s.MAX_ ∧ (add_front _ node).length_ < SIZE_MOD
    rw [a3, a4]
    exact ⟨p4, by rw [show _ = s.length_ from p3]; exact hl⟩
  · split at ha
    · cases ha
    · rename_i s0 he
      cases ha
      obtain ⟨e1, _⟩ := evict_loop_counters fuel he hl
      obtain ⟨n1, n2⟩ := new_node_counters s0 key value
      change (add_front _ _).MAX_ = s.MAX_ ∧ (add_front _ _).length_ < SIZE_MOD
      rw [(add_front_frame _ _).2.2.1, (add_front_frame _ _).2.2.2.1]
      refine ⟨n2.trans e1, ?_⟩
      change (new_node s0 key value).2.length_ < SIZE_MOD
      rw [n1]
      exact Nat.mod_lt _ size_mod_pos

theorem get_counters {s s1 : BreadthFixedMap K V} {key : K} {v : V}
    (hg : get s key = some (v, s1)) : s1.MAX_ = s.MAX_ ∧ s1.length_ = s.length_ := by
  unfold get at hg
  split at hg
  · cases hg
  · rename_i node hf
    simp only at hg
    split at hg
    · cases hg
      obtain ⟨_, _, b3, b4, _⟩ := link_head_frame (pick_up_node s node) node
      obtain ⟨_, _, p3, p4, _, _⟩ := pick_up_node_frame s node
      exact ⟨b4.trans p4, b3.trans p3⟩
    · cases hg

theorem remove_counters (s : BreadthFixedMap K V) (key : K) (hl : s.length_ < SIZE_MOD) :
    (remove s key).MAX_ = s.MAX_ ∧ (remove s key).length_ < SIZE_MOD := by
  unfold remove
  split
  · exact ⟨rfl, hl⟩
  · rename_i node _
    obtain ⟨c1, c2⟩ := remove_node_counters s node
    exact ⟨c2, by rw [c1]; exact Nat.mod_lt _ size_mod_pos⟩

theorem step_counters {fuel : Nat} {s s1 : BreadthFixedMap K V} {c : Call K V}
    (hs : step fuel s c = some s1) (hl : s.length_ < SIZE_MOD) :
    s1.MAX_ = s.MAX_ ∧ s1.length_ < SIZE_MOD := by
  cases c with
  | add key value => exact add_counters hs hl
  | get key =>
    simp only [step, Option.map_eq_some', Prod.exists] at hs
    obtain ⟨v, s2, hg, rfl⟩ := hs
    obtain ⟨g1, g2⟩ := get_counters hg
    exact ⟨g1, by rw [g2]; exact hl⟩
  | remove key =>
    simp only [step, Option.some.injEq] at hs
    subst hs
    exact remove_counters s key hl
  | find key =>
    simp only [step, Option.some.injEq] at hs
    subst hs
    exact ⟨rfl, hl⟩
  | size =>
    simp only [step, Option.some.injEq] at hs
    subst hs
    exact ⟨rfl, hl⟩

/-- In every state reached by public calls `MAX_` is the capacity given to the
constructor and `length_` is a `size_t` value. -/
theorem run_counters {fuel : Nat} (cs : List (Call K V)) :
    ∀ {s s1 : BreadthFixedMap K V}, run fuel s cs = some s1 → s.length_ < SIZE_MOD →
      s1.MAX_ = s.MAX_ ∧ s1.length_ < SIZE_MOD := by
  induction cs with
  | nil =>
    intro s s1 h hl
    simp only [run, Option.some.injEq] at h
    subst h
    exact ⟨rfl, hl⟩
  | cons c cs ih =>
    intro s s1 h hl
    unfold run at h
    split at h
    · cases h
    · rename_i s2 hs
      obtain ⟨c1, c2⟩ := step_counters hs hl
      obtain ⟨d1, d2⟩ := ih h c2
      exact ⟨d1.trans c1, d2⟩

/-- With `MAX_ >= 1` the eviction loop ends within `bound` iterations whenever
`length_ < MAX_ + bound`, each iteration starting with `length_ >= 1`, and
`length_` goes down by the number of iterations. -/
theorem evict_within (bound : Nat) : ∀ (s : BreadthFixedMap K V),
    1 ≤ s.MAX_ → s.length_ < SIZE_MOD → s.length_ < s.MAX_ + bound →
    ∃ tr s1, evict_trace bound s = some tr ∧ evict_loop bound s = some s1 ∧
      tr.length ≤ bound ∧ (∀ t, t ∈ tr → 1 ≤ t.length_) ∧
      s1.length_ + tr.length = s.length_ := by
  induction bound with
  | zero =>
    intro s _ _ hb
    have hc : ¬ s.MAX_ ≤ s.length_ := by omega
    refine ⟨[], s, ?_, ?_, Nat.le_refl _, fun t ht => (by cases ht), rfl⟩
    · unfold evict_trace
      simp [hc]
    · unfold evict_loop
      simp [hc]
  | succ n ih =>
    intro s hm hl hb
    by_cases hc : s.MAX_ ≤ s.length_
    · cases ht : s.tail_ with
      | none =>
        refine ⟨[], s, ?_, ?_, Nat.zero_le _, fun t ht => (by cases ht), rfl⟩
        · unfold evict_trace
          simp [hc, ht]
        · unfold evict_loop
          simp [hc, ht]
      | some t =>
        obtain ⟨c1, c2⟩ := remove_node_counters s t
        have hdec : (s.length_ + SIZE_MOD - 1) % SIZE_MOD = s.length_ - 1 := by
          unfold SIZE_MOD at *
          omega
        rw [hdec] at c1
        obtain ⟨tr, s1, h1, h2, h3, h4, h5⟩ := ih (remove_node s t)
          (by rw [c2]; exact hm) (by rw [c1]; omega) (by rw [c1, c2]; omega)
        refine ⟨s :: tr, s1, ?_, ?_, ?_, ?_, ?_⟩
        · unfold evict_trace
          simp [hc, ht, h1]
        · unfold evict_loop
          simp [hc, ht, h2]
        · simp only [List.length_cons]
          omega
        · intro x hx
          rcases List.mem_cons.mp hx with rfl | hx
          · omega
          · exact h4 x hx
        · simp only [List.length_cons]
          rw [c1] at h5
          omega
    · refine ⟨[], s, ?_, ?_, Nat.zero_le _, fun t ht => (by cases ht), rfl⟩
      · unfold evict_trace
        simp [hc]
      · unfold evict_loop
        simp [hc]

theorem pick_up_front_with_length (s : BreadthFixedMap K V) (node n : Nat) :
    pick_up_front { s with length_ := n } node = { pick_up_front s node with length_ := n } := by
  unfold pick_up_front
  simp only
  split
  · rfl
  · split <;> rfl

theorem pick_up_back_with_length (s : BreadthFixedMap K V) (node n : Nat) :
    pick_up_back { s with length_ := n } node = { pick_up_back s node with length_ := n } := by
  unfold pick_up_back
  simp only
  split
  · rfl
  · split <;> rfl

theorem pick_up_node_with_length (s : BreadthFixedMap K V) (node n : Nat) :
    pick_up_node { s with length_ := n } node = { pick_up_node s node with length_ := n } := by
  rw [pick_up_node_eq, pick_up_node_eq, pick_up_front_with_length, pick_up_back_with_length]
  rfl

theorem delete_node_with_length (s : BreadthFixedMap K V) (node n : Nat) :
    delete_node { s with length_ := n } node =
      { delete_node s node with length_ := (n + SIZE_MOD - 1) % SIZE_MOD } := by
  rw [delete_node_eq, delete_node_eq, pick_up_node_with_length]
  unfold push_free
  simp only
  split <;> rfl

theorem remove_node_with_length (s : BreadthFixedMap K V) (node n : Nat) :
    remove_node { s with length_ := n } node =
      { remove_node s node with length_ := (n + SIZE_MOD - 1) % SIZE_MOD } := by
  unfold remove_node
  simp only
  rw [delete_node_with_length]
  simp only
  split <;> rfl

theorem remove_node_stuck_even (len : Nat) :
    remove_node (stuck_even len) 0 = stuck_odd ((len + SIZE_MOD - 1) % SIZE_MOD) := by
  have h0 : remove_node (stuck_even 0) 0 = stuck_odd 18446744073709551615 := by decide
  have h1 : stuck_even len = { stuck_even 0 with length_ := len } := rfl
  rw [h1, remove_node_with_length, h0]
  rfl

theorem remove_node_stuck_odd (len : Nat) :
    remove_node (stuck_odd len) 1 = stuck_even ((len + SIZE_MOD - 1) % SIZE_MOD) := by
  have h0 : remove_node (stuck_odd 0) 1 = stuck_even 18446744073709551615 := by decide
  have h1 : stuck_odd len = { stuck_odd 0 with length_ := len } := rfl
  rw [h1, remove_node_with_length, h0]
  rfl

/-- From `stuck_even` and from `stuck_odd` the eviction loop never ends: one
iteration leads from each to the other. -/
theorem evict_loop_stuck (fuel : Nat) : ∀ len : Nat,
    evict_loop fuel (stuck_even len) = none ∧ evict_loop fuel (stuck_odd len) = none := by
  induction fuel with
  | zero =>
    intro len
    constructor
    · unfold evict_loop
      simp [stuck_even]
    · unfold evict_loop
      simp [stuck_odd]
  | succ n ih =>
    intro len
    constructor
    · have h : evict_loop (n + 1) (stuck_even len)
          = evict_loop n (remove_node (stuck_even len) 0) := by
        conv_lhs => unfold evict_loop
        simp [stuck_even]
      rw [h, remove_node_stuck_even]
      exact (ih _).2
    · have h : evict_loop (n + 1) (stuck_odd len)
          = evict_loop n (remove_node (stuck_odd len) 1) := by
        conv_lhs => unfold evict_loop
        simp [stuck_odd]
      rw [h, remove_node_stuck_odd]
      exact (ih _).1

theorem value_of_write_key (h : List (Node K V)) {p : Nat} (hp : p < h.length) (k : K) (v : V) :
    value_of (write h p (fun n => { n with key_ := k, value_ := v })) p = some v := by
  unfold value_of
  rw [getElem?_write]
  simp [List.getElem?_eq_getElem hp]

theorem value_of_write_ne (h : List (Node K V)) {p q : Nat} (hq : q ≠ p)
    (f : Node K V → Node K V) : value_of (write h p f) q = value_of h q := by
  unfold value_of
  rw [getElem?_write]
  simp [hq]

theorem value_of_append_lt (h : List (Node K V)) (x : Node K V) {q : Nat} (hq : q < h.length) :
    value_of (h ++ [x]) q = value_of h q := by
  unfold value_of
  rw [List.getElem?_append_left hq]

/-- The node returned by `new_node` is allocated, holds the given key and value
and has null links, provided `buffer_` is null or the address of a node. -/
theorem new_node_self (s : BreadthFixedMap K V) (key : K) (value : V)
    (hb : ∀ b, s.buffer_ = some b → b < s.store.length) :
    (new_node s key value).1 < (new_node s key value).2.store.length ∧
    key_of (new_node s key value).2.store (new_node s key value).1 = some key ∧
    value_of (new_node s key value).2.store (new_node s key value).1 = some value ∧
    previous_of (new_node s key value).2.store (new_node s key value).1 = none ∧
    next_of (new_node s key value).2.store (new_node s key value).1 = none := by
  cases hbuf : s.buffer_ with
  | none =>
    rw [new_node_none hbuf]
    have hlt : s.store.length < (set_next (s.store ++ [(⟨key, value, none, none⟩ : Node K V)])
        s.store.length none).length := by simp
    refine ⟨by simp, ?_, ?_, previous_of_set_previous_self _ hlt _, ?_⟩
    · show key_of (set_previous (set_next (s.store ++ [_]) s.store.length none)
        s.store.length none) s.store.length = some key
      rw [key_of_set_previous, key_of_set_next]
      unfold key_of
      simp
    · show value_of (set_previous (set_next (s.store ++ [_]) s.store.length none)
        s.store.length none) s.store.length = some value
      rw [value_of_set_previous, value_of_set_next]
      unfold value_of
      simp
    · show next_of (set_previous (set_next (s.store ++ [_]) s.store.length none)
        s.store.length none) s.store.length = none
      rw [next_of_set_previous]
      exact next_of_set_next_self _ (by simp) _
  | some b =>
    have hbv := hb b hbuf
    cases hx : next_of s.store b with
    | none =>
      rw [new_node_some_none hbuf hx]
      have hlt : b < (write s.store b (fun n => { n with key_ := key, value_ := value })).length := by
        rw [length_write]; exact hbv
      refine ⟨by simpa using hlt, ?_, ?_, previous_of_set_previous_self _ (by simpa using hlt) _, ?_⟩
      · show key_of (set_previous (set_next (write s.store b _) b none) b none) b = some key
        rw [key_of_set_previous, key_of_set_next]
        exact key_of_write_key _ hbv _ _
      · show value_of (set_previous (set_next (write s.store b _) b none) b none) b = some value
        rw [value_of_set_previous, value_of_set_next]
        exact value_of_write_key _ hbv _ _
      · show next_of (set_previous (set_next (write s.store b _) b none) b none) b = none
        rw [next_of_set_previous]
        exact next_of_set_next_self _ hlt _
    | some b1 =>
      rw [new_node_some_some hbuf hx]
      have hlt : b < (write (set_previous s.store b1 none) b
          (fun n => { n with key_ := key, value_ := value })).length := by
        rw [length_write, length_set_previous]; exact hbv
      refine ⟨by simpa using hlt, ?_, ?_, previous_of_set_previous_self _ (by simpa using hlt) _, ?_⟩
      · show key_of (set_previous (set_next (write (set_previous s.store b1 none) b _) b none)
          b none) b = some key
        rw [key_of_set_previous, key_of_set_next]
        exact key_of_write_key _ (by simpa using hbv) _ _
      · show value_of (set_previous (set_next (write (set_previous s.store b1 none) b _) b none)
          b none) b = some value
        rw [value_of_set_previous, value_of_set_next]
        exact value_of_write_key _ (by simpa using hbv) _ _
      · show next_of (set_previous (set_next (write (set_previous s.store b1 none) b _) b none)
          b none) b = none
        rw [next_of_set_previous]
        exact next_of_set_next_self _ hlt _

/-- The key and value of every node other than the one returned are unchanged by
`new_node`. -/
theorem new_node_other (s : BreadthFixedMap K V) (key : K) (value : V) {q : Nat}
    (hq : q < s.store.length) (hne : q ≠ (new_node s key value).1) :
    key_of (new_node s key value).2.store q = key_of s.store q ∧
    value_of (new_node s key value).2.store q = value_of s.store q := by
  cases hbuf : s.buffer_ with
  | none =>
    rw [new_node_none hbuf]
    constructor
    · show key_of (set_previous (set_next (s.store ++ [_]) s.store.length none)
        s.store.length none) q = _
      rw [key_of_set_previous, key_of_set_next]
      exact key_of_append_lt _ _ hq
    · show value_of (set_previous (set_next (s.store ++ [_]) s.store.length none)
        s.store.length none) q = _
      rw [value_of_set_previous, value_of_set_next]
      exact value_of_append_lt _ _ hq
  | some b =>
    cases hx : next_of s.store b with
    | none =>
      rw [new_node_some_none hbuf hx] at hne ⊢
      have hqb : q ≠ b := hne
      constructor
      · show key_of (set_previous (set_next (write s.store b _) b none) b none) q = _
        rw [key_of_set_previous, key_of_set_next]
        exact key_of_write_ne _ hqb _
      · show value_of (set_previous (set_next (write s.store b _) b none) b none) q = _
        rw [value_of_set_previous, value_of_set_next]
        exact value_of_write_ne _ hqb _
    | some b1 =>
      rw [new_node_some_some hbuf hx] at hne ⊢
      have hqb : q ≠ b := hne
      constructor
      · show key_of (set_previous (set_next (write (set_previous s.store b1 none) b _) b none)
          b none) q = _
        rw [key_of_set_previous, key_of_set_next, key_of_write_ne _ hqb, key_of_set_previous]
      · show value_of (set_previous (set_next (write (set_previous s.store b1 none) b _) b none)
          b none) q = _
        rw [value_of_set_previous, value_of_set_next, value_of_write_ne _ hqb,
          value_of_set_previous]

theorem evict_loop_absent (fuel : Nat) : ∀ {s s1 : BreadthFixedMap K V} {k : K},
    evict_loop fuel s = some s1 → table_find s.table_ k = none →
      table_find s1.table_ k = none := by
  induction fuel with
  | zero =>
    intro s s1 k h hk
    unfold evict_loop at h
    split at h
    · split at h
      · cases h
      · cases h; exact hk
    · cases h; exact hk
  | succ n ih =>
    intro s s1 k h hk
    unfold evict_loop at h
    split at h
    · split at h
      · rename_i t ht
        exact ih h (remove_node_absent hk t)
      · cases h; exact hk
    · cases h; exact hk

/-- What `get` returns: the value stored in the node the table gives for the
key. -/
theorem get_of_value {s : BreadthFixedMap K V} {key : K} {node : Nat} {v : V}
    (hf : table_find s.table_ key = some node) (hv : value_of s.store node = some v) :
    ∃ s1, get s key = some (v, s1) ∧ s1 = link_head (pick_up_node s node) node := by
  have hval : value_of (link_head (pick_up_node s node) node).store node = some v := by
    rw [(link_head_frame _ _).2.2.2.2.2.2.1, (pick_up_node_frame _ _).2.2.2.2.1]
    exact hv
  unfold get
  rw [hf]
  simp only
  unfold value_of at hval
  cases hg : (link_head (pick_up_node s node) node).store[node]? with
  | none => simp [hg] at hval
  | some n =>
    simp only [hg, Option.map_some', Option.some.injEq] at hval
    simp [hval]

/-- Whenever `add(k, v)` returns in a state reached by public calls, `find(k)` is
true and `get(k)` returns `v` afterwards. -/
theorem add_read_back {fuel : Nat} {s s1 : BreadthFixedMap K V} (hv : Valid s)
    {key : K} {value : V} (ha : add fuel s key value = some s1) :
    find s1 key = true ∧ (get s1 key).map Prod.fst = some value := by
  have hfin : ∀ node, table_find s1.table_ key = some node →
      value_of s1.store node = some value →
      find s1 key = true ∧ (get s1 key).map Prod.fst = some value := by
    intro node h1 h2
    obtain ⟨s2, hg, _⟩ := get_of_value h1 h2
    refine ⟨?_, ?_⟩
    · simp only [find, h1, Option.isSome_some]
    · rw [hg]; rfl
  unfold add at ha
  split at ha
  · rename_i node hf
    have hn := hv.table key node (mem_of_table_find hf)
    cases ha
    refine hfin node ?_ ?_
    · show table_find (add_front _ node).table_ key = some node
      rw [(add_front_frame _ _).1]
      show table_find (pick_up_node s node).table_ key = some node
      rw [(pick_up_node_frame s node).1]
      exact hf
    · show value_of (add_front _ node).store node = some value
      rw [(add_front_frame _ _).2.2.2.2.2.1]
      exact value_of_write_value _ (by rw [store_length_pick_up_node]; exact hn) value
  · rename_i hf
    split at ha
    · cases ha
    · rename_i s0 he
      cases ha
      have h0 := Valid_evict_loop fuel hv he
      have hk0 := evict_loop_absent fuel he hf
      obtain ⟨_, _, n3, _, _⟩ := new_node_self s0 key value (fun b hb => h0.buffer b hb)
      refine hfin (new_node s0 key value).1 ?_ ?_
      · show table_find (add_front _ _).table_ key = some _
        rw [(add_front_frame _ _).1]
        show table_find (table_insert (new_node s0 key value).2.table_ key _) key = some _
        rw [new_node_table, table_find_insert hk0]
        simp
      · show value_of (add_front _ _).store _ = some value
        rw [(add_front_frame _ _).2.2.2.2.2.1]
        exact n3

theorem first_or_eq_head (l : List Nat) : first_or l none = l.head? := by
  cases l <;> rfl

theorem last_or_eq_getLast (l : List Nat) : last_or l none = l.getLast? := by
  rcases eq_nil_or_snoc l with rfl | ⟨l0, p, rfl⟩
  · rfl
  · rw [last_or_concat, List.getLast?_append]
    rfl

theorem erase_middle {l1 l2 : List Nat} {node : Nat} (h : node ∉ l1) :
    (l1 ++ node :: l2).erase node = l1 ++ l2 := by
  rw [List.erase_append_right _ h, List.erase_cons_head]

/-- What `new_node` does when the free pool is not empty, apart from the
contents of the nodes. -/
theorem new_node_of_some {s : BreadthFixedMap K V} {b : Nat} (hb : s.buffer_ = some b)
    (key : K) (value : V) :
    (new_node s key value).1 = b ∧
    (new_node s key value).2.store.length = s.store.length ∧
    (new_node s key value).2.buffer_ = next_of s.store b := by
  cases hx : next_of s.store b with
  | none =>
    rw [new_node_some_none hb hx]
    exact ⟨rfl, by simp [length_write], rfl⟩
  | some b1 =>
    rw [new_node_some_some hb hx]
    exact ⟨rfl, by simp [length_write], rfl⟩

/-- What `new_node` does when the free pool is empty. -/
theorem new_node_of_none {s : BreadthFixedMap K V} (hb : s.buffer_ = none)
    (key : K) (value : V) :
    (new_node s key value).1 = s.store.length ∧
    (new_node s key value).2.store.length = s.store.length + 1 := by
  rw [new_node_none hb]
  exact ⟨rfl, by simp⟩

theorem entry_of_eq_some {h : List (Node K V)} {p : Nat} {k : K} {v : V} :
    entry_of h p = some (k, v) ↔ key_of h p = some k ∧ value_of h p = some v := by
  unfold entry_of
  cases key_of h p <;> cases value_of h p <;> simp

theorem entry_of_congr {h h1 : List (Node K V)} {p : Nat}
    (hk : key_of h1 p = key_of h p) (hv : value_of h1 p = value_of h p) :
    entry_of h1 p = entry_of h p := by
  unfold entry_of
  rw [hk, hv]

/-- The private `remove(Node*)` changes no key and no value. -/
theorem remove_node_contents (s : BreadthFixedMap K V) (node q : Nat) :
    key_of (remove_node s node).store q = key_of s.store q ∧
    value_of (remove_node s node).store q = value_of s.store q := by
  obtain ⟨_, _, _, _, p5, p6⟩ := pick_up_node_frame s node
  have hd : key_of (delete_node s node).store q = key_of s.store q ∧
      value_of (delete_node s node).store q = value_of s.store q := by
    rw [delete_node_eq]
    unfold push_free
    simp only
    split <;> simp [p5, p6]
  unfold remove_node
  simp only
  split
  · exact hd
  · exact hd

/-- The eviction loop under the representation invariant, with the list it
leaves: it removes the last node of the recency list when
`MAX_ <= length_`, and nothing otherwise. -/
theorem WF_evict_loop_list {s : BreadthFixedMap K V} {l f : List Nat} (hw : WF s l f)
    {fuel : Nat} (hfuel : 1 ≤ fuel) :
    ∃ s0 f0, evict_loop fuel s = some s0 ∧ WF s0 (after_evict s l) f0 ∧
      (after_evict s l).length + 1 ≤ max s.MAX_ 1 ∧ s0.MAX_ = s.MAX_ ∧
      (∀ q, key_of s0.store q = key_of s.store q ∧ value_of s0.store q = value_of s.store q) := by
  obtain ⟨n, rfl⟩ : ∃ n, fuel = n + 1 := ⟨fuel - 1, by omega⟩
  have hlen : s.length_ = l.length := hw.length
  unfold after_evict
  by_cases hc : s.MAX_ ≤ s.length_
  · have hc1 : s.MAX_ ≤ l.length := by rw [← hlen]; exact hc
    simp only [hc1, if_true]
    cases htl : s.tail_ with
    | none =>
      have hl : l = [] := last_or_eq_none (hw.tail.symm.trans htl)
      subst hl
      refine ⟨s, f, evict_loop_exit (Or.inr htl) _, hw, ?_, rfl, fun _ => ⟨rfl, rfl⟩⟩
      simp
    | some t =>
      have htl1 : last_or l none = some t := hw.tail.symm.trans htl
      rcases eq_nil_or_snoc l with rfl | ⟨l1, p, rfl⟩
      · cases htl1
      · rw [last_or_concat] at htl1
        cases htl1
        rw [List.dropLast_concat]
        have hw1 : WF s (l1 ++ t :: []) f := hw
        obtain ⟨h1, h2⟩ := WF_remove_node hw1
        rw [List.append_nil] at h1
        have hbd : (l1 ++ [t]).length ≤ max s.MAX_ 1 := hw.bound
        have hlen1 : l1.length + 1 ≤ max s.MAX_ 1 := by
          simpa using hbd
        have hexit : ¬ (remove_node s t).MAX_ ≤ (remove_node s t).length_ ∨
            (remove_node s t).tail_ = none := by
          rw [h2, h1.length]
          rcases Nat.eq_zero_or_pos s.MAX_ with h0 | hpos
          · right
            rw [h0] at hlen1
            have hnil : l1 = [] := by
              apply List.eq_nil_of_length_eq_zero
              have : max 0 1 = 1 := rfl
              omega
            rw [h1.tail, hnil]
            rfl
          · left
            have : max s.MAX_ 1 = s.MAX_ := max_eq_left hpos
            omega
        refine ⟨remove_node s t, t :: f, ?_, h1, hlen1, h2,
          fun q => remove_node_contents s t q⟩
        unfold evict_loop
        simp only [hc, if_true, htl]
        exact evict_loop_exit hexit n
  · have hc1 : ¬ s.MAX_ ≤ l.length := by rw [← hlen]; exact hc
    simp only [hc1, if_false]
    refine ⟨s, f, evict_loop_exit (Or.inl hc) _, hw, ?_, rfl, fun _ => ⟨rfl, rfl⟩⟩
    have h2 : s.MAX_ ≤ max s.MAX_ 1 := le_max_left _ _
    omega

/-- `add` of an absent key under the representation invariant, with the list
it leaves: the new node, holding the key and the value, in front of what the
eviction loop leaves, whose nodes keep their keys and values. -/
theorem WF_add_absent_list {s : BreadthFixedMap K V} {l f : List Nat} (hw : WF s l f)
    {key : K} (hk : table_find s.table_ key = none) {fuel : Nat} (hfuel : 1 ≤ fuel)
    (value : V) :
    ∃ s1 node f1, add fuel s key value = some s1 ∧ WF s1 (node :: after_evict s l) f1 ∧
      entry_of s1.store node = some (key, value) ∧
      (∀ q, q ∈ after_evict s l → entry_of s1.store q = entry_of s.store q) ∧
      s1.MAX_ = s.MAX_ := by
  obtain ⟨s0, f0, he, hw0, hroom, hmax0, hcont⟩ := WF_evict_loop_list hw hfuel
  have hk0 := evict_loop_absent fuel he hk
  generalize after_evict s l = l0 at hw0 hroom
  obtain ⟨f1, a1, a2, a3, a4, a5, a6, a7, a8, a9, a10, a11, a12, a13⟩ :=
    new_node_spec hw0 key value
  have hbv : ∀ b, s0.buffer_ = some b → b < s0.store.length := by
    intro b hb
    have hb1 : first_or f0 none = some b := hw0.buffer.symm.trans hb
    cases f0 with
    | nil => cases hb1
    | cons c r =>
      cases hb1
      exact hw0.free.1
  obtain ⟨_, _, n3, _, _⟩ := new_node_self s0 key value hbv
  have hoth : ∀ q, q ∈ l0 →
      key_of (new_node s0 key value).2.store q = key_of s.store q ∧
      value_of (new_node s0 key value).2.store q = value_of s.store q := by
    intro q hq
    have hql : q < s0.store.length := Seg_lt _ _ _ hw0.list q hq
    have hqn : q ≠ (new_node s0 key value).1 := by
      rintro rfl
      exact (List.nodup_cons.mp a4).1 (List.mem_append_left _ hq)
    obtain ⟨o1, o2⟩ := new_node_other s0 key value hql hqn
    exact ⟨o1.trans (hcont q).1, o2.trans (hcont q).2⟩
  generalize hr : new_node s0 key value = r at a1 a2 a3 a4 a5 a6 a7 a8 a9 a10 a11 a12 a13 n3 hoth
  have hd : WFD ({ r.2 with table_ := table_insert r.2.table_ key r.1 }) l0 f1 r.1 := by
    refine ⟨a1, a9.trans hw0.head, a10.trans hw0.tail, a2, a3, a4, a5, a6, ?_, ?_, ?_, ?_⟩
    · intro k p
      show table_find (table_insert r.2.table_ key r.1) k = some p ↔
        p ∈ r.1 :: l0 ∧ key_of r.2.store p = some k
      rw [a11, table_find_insert hk0]
      by_cases hkk : k = key
      · subst hkk
        simp only [if_true, Option.some.injEq]
        constructor
        · rintro rfl
          exact ⟨List.mem_cons_self _ _, a7⟩
        · rintro ⟨hp, hpk⟩
          rcases List.mem_cons.mp hp with h | h
          · exact h.symm
          · rw [a8 p h] at hpk
            have := (hw0.table k p).mpr ⟨h, hpk⟩
            rw [hk0] at this
            cases this
      · simp only [hkk, if_false]
        rw [hw0.table]
        constructor
        · rintro ⟨hp, hpk⟩
          exact ⟨List.mem_cons_of_mem _ hp, (a8 p hp).trans hpk⟩
        · rintro ⟨hp, hpk⟩
          rcases List.mem_cons.mp hp with h | h
          · subst h
            rw [a7] at hpk
            exact absurd (Option.some.inj hpk).symm hkk
          · exact ⟨h, (a8 p h).symm.trans hpk⟩
    · show r.2.length_ = l0.length + 1
      rw [a12, hw0.length]
      exact size_inc (by rw [hmax0]; exact hroom) hw0.max_lt
    · show l0.length + 1 ≤ max r.2.MAX_ 1
      rw [a13, hmax0]; exact hroom
    · show r.2.MAX_ < SIZE_MOD
      rw [a13]; exact hw0.max_lt
  obtain ⟨_, _, _, g4, _, g6, g7⟩ :=
    add_front_frame ({ r.2 with table_ := table_insert r.2.table_ key r.1 }) r.1
  refine ⟨_, r.1, f1, ?_, WF_add_front hd, ?_, ?_, ?_⟩
  · unfold add
    rw [hk]
    simp only [he, hr]
    rfl
  · rw [entry_of_eq_some, g7, g6]
    exact ⟨a7, n3⟩
  · intro q hq
    exact entry_of_congr ((g7 q).trans (hoth q hq).1) ((g6 q).trans (hoth q hq).2)
  · rw [g4]
    exact a13.trans hmax0

theorem Holds_length {h : List (Node K V)} {l : List Nat} {m : List (K × V)}
    (hh : Holds h l m) : l.length = m.length := by
  have := congrArg List.length hh
  simpa using this

theorem Holds_mem_of_entry {h : List (Node K V)} {l : List Nat} {m : List (K × V)}
    (hh : Holds h l m) {e : K × V} (he : e ∈ m) : ∃ p, p ∈ l ∧ entry_of h p = some e := by
  have h1 : some e ∈ m.map some := List.mem_map.mpr ⟨e, he, rfl⟩
  rw [← hh] at h1
  obtain ⟨p, hp, hpe⟩ := List.mem_map.mp h1
  exact ⟨p, hp, hpe⟩

theorem Holds_entry_of_mem {h : List (Node K V)} {l : List Nat} {m : List (K × V)}
    (hh : Holds h l m) {p : Nat} (hp : p ∈ l) : ∃ e, e ∈ m ∧ entry_of h p = some e := by
  have h1 : entry_of h p ∈ l.map (entry_of h) := List.mem_map.mpr ⟨p, hp, rfl⟩
  rw [hh] at h1
  obtain ⟨e, he, hpe⟩ := List.mem_map.mp h1
  exact ⟨e, he, hpe.symm⟩

/-- Under the representation invariant `find(k)` tells whether `k` is a key of
the pairs held by the recency list. -/
theorem find_iff_of_Holds {s : BreadthFixedMap K V} {l f : List Nat} {m : List (K × V)}
    (hw : WF s l f) (hh : Holds s.store l m) (k : K) :
    find s k = true ↔ ∃ v, (k, v) ∈ m := by
  unfold find
  rw [Option.isSome_iff_exists]
  constructor
  · rintro ⟨p, hp⟩
    obtain ⟨hpl, hpk⟩ := (hw.table k p).mp hp
    obtain ⟨e, he, hpe⟩ := Holds_entry_of_mem hh hpl
    obtain ⟨k1, v1⟩ := e
    have := (entry_of_eq_some.mp hpe).1
    rw [hpk] at this
    cases this
    exact ⟨v1, he⟩
  · rintro ⟨v, hv⟩
    obtain ⟨p, hp, hpe⟩ := Holds_mem_of_entry hh hv
    exact ⟨p, (hw.table k p).mpr ⟨hp, (entry_of_eq_some.mp hpe).1⟩⟩

theorem Holds_after_evict {s : BreadthFixedMap K V} {l : List Nat} {m : List (K × V)}
    (hh : Holds s.store l m) :
    Holds s.store (after_evict s l) (if s.MAX_ ≤ m.length then m.dropLast else m) := by
  unfold after_evict
  rw [Holds_length hh]
  split
  · unfold Holds at *
    rw [List.map_dropLast, List.map_dropLast, hh]
  · exact hh

theorem Holds_congr {h h1 : List (Node K V)} {l : List Nat} {m : List (K × V)}
    (hh : Holds h l m) (hc : ∀ q, q ∈ l → entry_of h1 q = entry_of h q) : Holds h1 l m := by
  unfold Holds at *
  rw [← hh]
  exact List.map_congr_left hc

/-- The pairs left by `add` of an absent key to the pairs `m` of a map of
capacity `cap >= 1` holding at most `cap` pairs. -/
theorem lru_take {cap : Nat} (hcap : 1 ≤ cap) (e : K × V) (m : List (K × V))
    (hm : m.length ≤ cap) :
    e :: (if cap ≤ m.length then m.dropLast else m) = (e :: m).take cap := by
  obtain ⟨c, rfl⟩ : ∃ c, cap = c + 1 := ⟨cap - 1, by omega⟩
  rw [List.take_succ_cons]
  split
  · rw [List.dropLast_eq_take]
    have : m.length = c + 1 := by omega
    rw [this]
    rfl
  · rw [List.take_of_length_le (by omega)]

theorem take_append_take {α : Type} (n : Nat) (a b : List α) :
    (a ++ b.take n).take n = (a ++ b).take n := by
  rw [List.take_append_eq_append_take, List.take_append_eq_append_take, List.take_take]
  congr 2
  omega

/-- Adding pairwise distinct absent keys one after the other: the map ends up
holding the newest `MAX_` pairs, newest first. -/
theorem fill_spec {fuel : Nat} (hfuel : 1 ≤ fuel) (kvs : List (K × V)) :
    ∀ {s : BreadthFixedMap K V} {l f : List Nat} {m : List (K × V)},
      WF s l f → Holds s.store l m → 1 ≤ s.MAX_ → m.length ≤ s.MAX_ →
      (kvs.map Prod.fst ++ m.map Prod.fst).Nodup →
      ∃ s1 l1 f1, run fuel s (kvs.map (fun e => Call.add e.1 e.2)) = some s1 ∧
        WF s1 l1 f1 ∧ Holds s1.store l1 ((kvs.reverse ++ m).take s.MAX_) ∧
        s1.MAX_ = s.MAX_ := by
  induction kvs with
  | nil =>
    intro s l f m hw hh _ hm _
    refine ⟨s, l, f, rfl, hw, ?_, rfl⟩
    simpa [List.take_of_length_le hm] using hh
  | cons e rest ih =>
    intro s l f m hw hh hcap hm hnd
    have hke : table_find s.table_ e.1 = none := by
      cases hf : table_find s.table_ e.1 with
      | none => rfl
      | some p =>
        have hfind : find s e.1 = true := by simp [find, hf]
        obtain ⟨v, hv⟩ := (find_iff_of_Holds hw hh e.1).mp hfind
        have h1 : e.1 ∈ m.map Prod.fst := List.mem_map.mpr ⟨(e.1, v), hv, rfl⟩
        have h2 : e.1 ∈ (e :: rest).map Prod.fst := by simp
        exact absurd h1 (fun h => (List.nodup_append.mp hnd).2.2 h2 h)
    obtain ⟨s1, node, f1, ha, hw1, hent, hoth, hmax1⟩ :=
      WF_add_absent_list hw hke hfuel e.2
    have hh1 : Holds s1.store (node :: after_evict s l) ((e :: m).take s.MAX_) := by
      rw [← lru_take hcap e m hm]
      have h0 := Holds_congr (Holds_after_evict hh) hoth
      unfold Holds at *
      rw [List.map_cons, List.map_cons, hent, h0]
    have hlen1 : ((e :: m).take s.MAX_).length ≤ s1.MAX_ := by
      rw [hmax1, List.length_take]
      exact Nat.min_le_left _ _
    have hnd1 : (rest.map Prod.fst ++ ((e :: m).take s.MAX_).map Prod.fst).Nodup := by
      have hsub : (rest.map Prod.fst ++ ((e :: m).take s.MAX_).map Prod.fst).Sublist
          (rest.map Prod.fst ++ (e :: m).map Prod.fst) :=
        List.Sublist.append_left ((List.take_sublist _ _).map _) _
      refine hsub.nodup ?_
      have hp : (rest.map Prod.fst ++ (e :: m).map Prod.fst).Perm
          ((e :: rest).map Prod.fst ++ m.map Prod.fst) := by
        simp only [List.map_cons, List.cons_append]
        exact List.perm_middle
      exact hp.nodup_iff.mpr hnd
    obtain ⟨s2, l2, f2, hr, hw2, hh2, hmax2⟩ := ih hw1 hh1 (by rw [hmax1]; exact hcap) hlen1 hnd1
    refine ⟨s2, l2, f2, ?_, hw2, ?_, hmax2.trans hmax1⟩
    · simp only [List.map_cons, run, step, ha]
      exact hr
    · rw [hmax1, take_append_take] at hh2
      simpa using hh2

/-- Under the representation invariant `get` of the key of a node of the recency
list returns the value of that node; when another node is held too, the
invariant is kept, with the same nodes and the same pairs in them. -/
theorem get_of_entry {s : BreadthFixedMap K V} {l f : List Nat} (hw : WF s l f)
    {p : Nat} {e : K × V} (hp : p ∈ l) (he : entry_of s.store p = some e) :
    ∃ s1, get s e.1 = some (e.2, s1) ∧
      (∀ q, entry_of s1.store q = entry_of s.store q) ∧
      ((∃ q, q ∈ l ∧ q ≠ p) → ∃ l1, WF s1 l1 f ∧ ∀ q, q ∈ l1 ↔ q ∈ l) := by
  obtain ⟨hk, hv⟩ := entry_of_eq_some.mp he
  have hf : table_find s.table_ e.1 = some p := (hw.table e.1 p).mpr ⟨hp, hk⟩
  obtain ⟨s1, hg, rfl⟩ := get_of_value hf hv
  refine ⟨_, hg, ?_, ?_⟩
  · intro q
    apply entry_of_congr
    · rw [(link_head_frame _ _).2.2.2.2.2.2.2, (pick_up_node_frame _ _).2.2.2.2.2]
    · rw [(link_head_frame _ _).2.2.2.2.2.2.1, (pick_up_node_frame _ _).2.2.2.2.1]
  · rintro ⟨q, hq, hqp⟩
    obtain ⟨l1, l2, rfl⟩ := mem_split hp
    have hd := WFD_pick_up_node hw
    have hne : l1 ++ l2 ≠ [] := by
      intro e0
      have : q ∈ p :: (l1 ++ l2) := (mem_middle_iff l1 l2 p q).mp hq
      rw [e0] at this
      simp at this
      exact hqp this
    exact ⟨p :: (l1 ++ l2), WF_link_head hd hne, fun r => (mem_middle_iff l1 l2 p r).symm⟩

/-- Querying pairwise distinct held keys one after the other returns the value
held for each. -/
theorem get_all_spec {f : List Nat} (es : List (K × V)) :
    ∀ {s : BreadthFixedMap K V} {l : List Nat}, WF s l f →
      (∀ e, e ∈ es → ∃ p, p ∈ l ∧ entry_of s.store p = some e) →
      (es.map Prod.fst).Nodup →
      (get_all s (es.map Prod.fst)).map Prod.fst = some (es.map Prod.snd) := by
  induction es with
  | nil => intro s l _ _ _; rfl
  | cons e rest ih =>
    intro s l hw hall hnd
    obtain ⟨p, hp, he⟩ := hall e (List.mem_cons_self _ _)
    obtain ⟨s1, hg, hent, hkeep⟩ := get_of_entry hw hp he
    simp only [List.map_cons, get_all, hg]
    cases rest with
    | nil => rfl
    | cons e2 rest2 =>
      obtain ⟨p2, hp2, he2⟩ := hall e2 (List.mem_cons_of_mem _ (List.mem_cons_self _ _))
      have hne : p2 ≠ p := by
        rintro rfl
        rw [he] at he2
        cases he2
        simp at hnd
      obtain ⟨l1, hw1, hmem⟩ := hkeep ⟨p2, hp2, hne⟩
      have hnd1 : ((e2 :: rest2).map Prod.fst).Nodup := (List.nodup_cons.mp hnd).2
      have hall1 : ∀ e0, e0 ∈ e2 :: rest2 → ∃ q, q ∈ l1 ∧ entry_of s1.store q = some e0 := by
        intro e0 h0
        obtain ⟨q, hq, hqe⟩ := hall e0 (List.mem_cons_of_mem _ h0)
        exact ⟨q, (hmem q).mpr hq, (hent q).trans hqe⟩
      have h := ih hw1 hall1 hnd1
      cases hga : get_all s1 ((e2 :: rest2).map Prod.fst) with
      | none => rw [hga] at h; cases h
      | some r =>
        rw [hga] at h
        obtain ⟨vs, s2⟩ := r
        simp only [Option.map_some', Option.some.injEq] at h
        simp only [List.map_cons] at hga
        simp only [hga, Option.map_some', List.map_cons, h]

theorem mem_drop_iff {α : Type} (xs : List α) (d : Nat) (a : α) :
    a ∈ xs.drop d ↔ ∃ j, d ≤ j ∧ xs[j]? = some a := by
  rw [List.mem_iff_getElem?]
  constructor
  · rintro ⟨n, hn⟩
    rw [List.getElem?_drop] at hn
    exact ⟨d + n, Nat.le_add_right _ _, hn⟩
  · rintro ⟨j, hj, hja⟩
    refine ⟨j - d, ?_⟩
    rw [List.getElem?_drop]
    have : d + (j - d) = j := by omega
    rw [this]
    exact hja

theorem key_index_unique (kvs : List (K × V)) (hnd : (kvs.map Prod.fst).Nodup)
    {i j : Nat} {e1 e2 : K × V} (h1 : kvs[i]? = some e1) (h2 : kvs[j]? = some e2)
    (hk : e1.1 = e2.1) : i = j := by
  have hi : i < (kvs.map Prod.fst).length := by
    rw [List.length_map]
    exact (List.getElem?_eq_some_iff.mp h1).1
  apply List.getElem?_inj hi hnd
  rw [List.getElem?_map, List.getElem?_map, h1, h2]
  simp [hk]

/-- Where the capacity bound does hold: for every capacity `cap` below `2 ^ 64`
and every finite sequence of `add`, `remove`, `find`, `size` calls and of `get`
calls made on a present key while at least two entries are held, applied to a
freshly constructed map, every call returns (one iteration of the eviction
loop is enough) and `size() <= max(cap, 1)` holds after every call, that is
after the first `n` calls for every `n`.  A `get` on the only entry and
capacity 0 are what this leaves out; `size()` exceeds the capacity there. -/
theorem capacity_bound_safe (cap fuel : Nat) (cs : List (Call K V))
    (hcap : cap < SIZE_MOD) (hfuel : 1 ≤ fuel)
    (hsafe : safe_run fuel (mk_empty cap) cs = true) (n : Nat) :
    ∃ s, run fuel (mk_empty cap) (cs.take n) = some s ∧ size s ≤ Nat.max cap 1 := by
  obtain ⟨s, l, f, h1, h2, h3⟩ :=
    WF_run hfuel (cs.take n) (WF_mk_empty hcap) (safe_run_take fuel cs _ n hsafe)
  refine ⟨s, h1, ?_⟩
  have hb := h2.bound
  rw [h3] at hb
  simp only [size]
  rw [h2.length]
  exact hb

/-- An instance of `capacity_bound_safe`: capacity 2, seven calls among which a
`get` made while two entries are held, looked at after the fourth call. -/
theorem capacity_bound_safe_example :
    (2 < SIZE_MOD ∧ 1 ≤ 1 ∧
      safe_run 1 (mk_empty 2 : BreadthFixedMap Nat Nat)
        [Call.add 1 10, Call.add 2 20, Call.get 1, Call.add 3 30, Call.remove 3,
         Call.find 1, Call.size] = true) ∧
    ∃ s, run 1 (mk_empty 2 : BreadthFixedMap Nat Nat)
        ([Call.add 1 10, Call.add 2 20, Call.get 1, Call.add 3 30, Call.remove 3,
          Call.find 1, Call.size].take 4) = some s ∧ size s ≤ Nat.max 2 1 :=
  ⟨⟨by decide, by decide, by decide⟩,
    capacity_bound_safe 2 1
      [Call.add 1 10, Call.add 2 20, Call.get 1, Call.add 3 30, Call.remove 3,
       Call.find 1, Call.size] (by decide) (by decide) (by decide) 4⟩

/-- What the code does at capacity 0: for a map constructed with capacity 0,
after any sequence of `add`, `remove`, `find` and `size` calls (a `get` is never
a `safe_call` here, fewer than two entries being held), `add(k, v)` returns,
having evicted every entry held before and kept the inserted one:
`size() == 1`, `find(k)` is true and no other key is present. -/
theorem capacity_zero_keeps_last (fuel : Nat) (cs : List (Call K V)) (hfuel : 1 ≤ fuel)
    (hsafe : safe_run fuel (mk_empty 0) cs = true) (k : K) (v : V) :
    ∃ s s1, run fuel (mk_empty 0) cs = some s ∧ add fuel s k v = some s1 ∧
      size s1 = 1 ∧ find s1 k = true ∧ ∀ k1, k1 ≠ k → find s1 k1 = false := by
  have hmax : 0 < SIZE_MOD := by unfold SIZE_MOD; omega
  obtain ⟨s, l, f, h1, h2, h3⟩ := WF_run hfuel cs (WF_mk_empty hmax) hsafe
  obtain ⟨s1, node, l0, f1, a1, a2, a3, a4⟩ := WF_add h2 hfuel k v
  have hb := a2.bound
  rw [a4, h3] at hb
  have hl0 : l0 = [] := by
    apply List.eq_nil_of_length_eq_zero
    simp only [List.length_cons, mk_empty] at hb
    have : Nat.max 0 1 = 1 := rfl
    omega
  subst hl0
  refine ⟨s, s1, h1, a1, ?_, ?_, ?_⟩
  · simp only [size]
    rw [a2.length]
    rfl
  · have := (a2.table k node).mpr ⟨List.mem_cons_self _ _, a3⟩
    simp only [find, this, Option.isSome_some]
  · intro k1 hk1
    cases hf : table_find s1.table_ k1 with
    | none => simp only [find, hf, Option.isSome_none]
    | some p =>
      have hp := (a2.table k1 p).mp hf
      have hpn : p = node := by simpa using hp.1
      rw [hpn, a3] at hp
      exact absurd (Option.some.inj hp.2).symm hk1

/-- An instance of `capacity_zero_keeps_last`: capacity 0 after `add(1, 10)`,
`add(2, 20)`, `remove(5)`, then `add(3, 30)`. -/
theorem capacity_zero_keeps_last_example :
    (1 ≤ 1 ∧
      safe_run 1 (mk_empty 0 : BreadthFixedMap Nat Nat)
        [Call.add 1 10, Call.add 2 20, Call.remove 5] = true) ∧
    ∃ s s1, run 1 (mk_empty 0 : BreadthFixedMap Nat Nat)
        [Call.add 1 10, Call.add 2 20, Call.remove 5] = some s ∧
      add 1 s 3 30 = some s1 ∧
      size s1 = 1 ∧ find s1 3 = true ∧ ∀ k1, k1 ≠ 3 → find s1 k1 = false :=
  ⟨⟨by decide, by decide⟩,
    capacity_zero_keeps_last 1 [Call.add 1 10, Call.add 2 20, Call.remove 5] (by decide)
      (by decide) 3 30⟩

/-! ## The claims -/

/-- Claim C1 (capacity bound) evaluated on the code.  With capacity 0, after the
single call `add(1, 10)` on a freshly constructed map `size()` is 1, which is
not `<= 0`.  With capacity 1, after `add(1, 10)` key 1 is present, and after
`add(1, 10)`, `get(1)`, `add(2, 20)` `size()` is 2, which is not `<= 1`. -/
theorem C1_size_above_capacity :
    (run 0 (mk_empty 0 : BreadthFixedMap Nat Nat) [Call.add 1 10]).map
        (fun s => (size s, decide (size s ≤ 0))) = some (1, false) ∧
    (run 0 (mk_empty 1 : BreadthFixedMap Nat Nat) [Call.add 1 10]).map
        (fun s => find s 1) = some true ∧
    (run 0 (mk_empty 1 : BreadthFixedMap Nat Nat)
        [Call.add 1 10, Call.get 1, Call.add 2 20]).map
        (fun s => (size s, decide (size s ≤ 1))) = some (2, false) := by
  decide

/-- Claim C2 (eviction correctness) evaluated on the code: with capacity 2, after
`add(1, 10)`, `get(1)`, `add(2, 20)` the map is full (`size() == 2`), keys 1 and
2 are present and key 3 is absent; `add(3, 30)` then evicts key 2, the most
recently used key, and keeps key 1, the least recently used one. -/
theorem C2_wrong_eviction :
    ∃ s s1 : BreadthFixedMap Nat Nat,
      run 0 (mk_empty 2) [Call.add 1 10, Call.get 1, Call.add 2 20] = some s ∧
      size s = 2 ∧ find s 1 = true ∧ find s 2 = true ∧ find s 3 = false ∧
      add 1 s 3 30 = some s1 ∧ find s1 1 = true ∧ find s1 2 = false :=
  ⟨_, _, rfl, by decide, by decide, by decide, by decide, rfl, by decide, by decide⟩

/-- Claim C3 (membership agrees with the reference model) evaluated on the
code: with capacity 1, after `add(1, 10)`, `get(1)`, `add(2, 20)` the code has
`find(1)` true, while the reference model run on the same calls does not
contain key 1. -/
theorem C3_differs_from_reference :
    (run 0 (mk_empty 1 : BreadthFixedMap Nat Nat)
        [Call.add 1 10, Call.get 1, Call.add 2 20]).map (fun s => find s 1) = some true ∧
      ref_contains (ref_run 1 [Call.add 1 10, Call.get 1, Call.add 2 20] : List (Nat × Nat)) 1
        = false := by
  decide

/-- Claim C4 (counting invariant) evaluated on the code: with capacity 1, after
`add(1, 10)`, `get(1)`, `add(2, 20)`, `add(3, 30)`, `size()` is 1 and one node is
reachable from `head_`, but the lookup table holds two keys (`find` is true
for keys 1 and 3). -/
theorem C4_counts_differ :
    (run 2 (mk_empty 1 : BreadthFixedMap Nat Nat)
        [Call.add 1 10, Call.get 1, Call.add 2 20, Call.add 3 30]).map
      (fun s => (size s, s.table_.length, [1, 2, 3].map (find s),
        chain_length s.store s.store.length s.head_))
      = some (1, 2, [true, false, true], 1) := by
  decide

/-- Claim C5 (`get` returns the stored value) evaluated on the code: with
capacity 1, after `add(1, 10)`, `get(1)`, `add(2, 20)`, `add(3, 30)`, `get(1)`,
`add(2, 40)`, `find(3)` is true and `get(3)` returns 40, although the most
recent `add(3, .)` stored 30. -/
theorem C5_get_returns_other_value :
    (run 2 (mk_empty 1 : BreadthFixedMap Nat Nat)
        [Call.add 1 10, Call.get 1, Call.add 2 20, Call.add 3 30, Call.get 1, Call.add 2 40]).map
      (fun s => (find s 3, (get s 3).map Prod.fst)) = some (true, some 40) := by
  decide

/-- Claim C7 (promotion effect) evaluated on the code: with capacity 2, in the
state reached by `add(1, 10)`, `get(1)`, `add(2, 20)`, key 2 is present and key
3 is absent; after `get(2)` the burst of `2 - 1 = 1` insertion `add(3, 30)`
leaves `find(2)` false. -/
theorem C7_promoted_key_evicted :
    (run 1 (mk_empty 2 : BreadthFixedMap Nat Nat)
        [Call.add 1 10, Call.get 1, Call.add 2 20]).map
      (fun s => (find s 2, find s 3, (run 1 s [Call.get 2, Call.add 3 30]).map (fun s1 => find s1 2)))
      = some (true, false, some false) := by
  decide

/-- Claim C8 (removing an absent key): in every state, if `find(k)` is false then
`remove(k)` returns the state unchanged, and so does a second `remove(k)`. -/
theorem C8_remove_absent_noop (s : BreadthFixedMap K V) (k : K)
    (h : find s k = false) : remove s k = s ∧ remove (remove s k) k = s := by
  have hn : table_find s.table_ k = none := by
    simpa [find] using h
  have h1 : remove s k = s := by
    unfold remove
    rw [hn]
  rw [h1]
  exact ⟨rfl, h1⟩

/-- Witness of `C8_remove_absent_noop`: key 7 is absent from `example_full`. -/
theorem C8_remove_absent_noop_witness :
    find example_full 7 = false ∧
      (remove example_full 7 = example_full ∧
        remove (remove example_full 7) 7 = example_full) :=
  ⟨by decide, C8_remove_absent_noop example_full 7 (by decide)⟩

/-- Claim C9 (removal of a present key) evaluated on the code: with capacity 1,
in the state reached by `add(1, 10)`, `get(1)`, `add(2, 20)`, `add(3, 30)`,
`get(1)`, `add(2, 40)`, keys 2 and 3 are present; `remove(3)` leaves `find(3)`
true and makes the other key 2 absent. -/
theorem C9_remove_keeps_key :
    (run 2 (mk_empty 1 : BreadthFixedMap Nat Nat)
        [Call.add 1 10, Call.get 1, Call.add 2 20, Call.add 3 30, Call.get 1, Call.add 2 40]).map
      (fun s => (find s 3, find s 2, find (remove s 3) 3, find (remove s 3) 2))
      = some (true, true, true, false) := by
  decide

/-- Claim C10 (capacity 0) evaluated on the code: with capacity 0, after the
single call `add(1, 10)` on a freshly constructed map `size()` is 1 and
`find(1)` is true; after a following `add(2, 20)` `size()` is 1 and `find(2)`
is true.  The inserted entry is kept by each `add`. -/
theorem C10_entry_kept_at_capacity_zero :
    (run 0 (mk_empty 0 : BreadthFixedMap Nat Nat) [Call.add 1 10]).map
        (fun s => (size s, find s 1)) = some (1, true) ∧
    (run 1 (mk_empty 0 : BreadthFixedMap Nat Nat) [Call.add 1 10, Call.add 2 20]).map
        (fun s => (size s, find s 2)) = some (1, true) := by
  decide

/-- Claim C12 (`find` does not mutate): `find(k)` returns the state it was
called in, whatever the state and the key, so a sequence of calls gives the
same result (the same final state, hence the same `size()` and the same
evictions by later `add` calls) as the sequence without its `find` calls. -/
theorem C12_find_no_mutation (fuel : Nat) (s : BreadthFixedMap K V) (k : K)
    (cs : List (Call K V)) :
    step fuel s (Call.find k) = some s ∧ run fuel s cs = run fuel s (without_find cs) := by
  refine ⟨rfl, ?_⟩
  induction cs generalizing s with
  | nil => rfl
  | cons c cs ih =>
    cases c with
    | find key =>
      simp only [without_find, run, step]
      exact ih s
    | add key value =>
      simp only [without_find, run]
      cases step fuel s (Call.add key value) with
      | none => rfl
      | some s1 => exact ih s1
    | get key =>
      simp only [without_find, run]
      cases step fuel s (Call.get key) with
      | none => rfl
      | some s1 => exact ih s1
    | remove key =>
      simp only [without_find, run]
      cases step fuel s (Call.remove key) with
      | none => rfl
      | some s1 => exact ih s1
    | size =>
      simp only [without_find, run]
      cases step fuel s (Call.size : Call K V) with
      | none => rfl
      | some s1 => exact ih s1

/-- Claim C13 (teardown) evaluated on the code: with capacity 1, after
`add(1, 10)`, `get(1)`, `add(2, 20)`, `add(3, 30)` two nodes are allocated
(addresses 0 and 1); the destructor deletes node 1 on the walk from `head_` and
again on the walk from `buffer_`, and never deletes node 0. -/
theorem C13_double_delete_and_leak :
    (run 2 (mk_empty 1 : BreadthFixedMap Nat Nat)
        [Call.add 1 10, Call.get 1, Call.add 2 20, Call.add 3 30]).map
      (fun s => (s.store.length, destructor 2 s)) = some (2, some [1, 1]) := by
  decide

/-- Claim C14 (head and tail after promotion) evaluated on the code: with
capacity 8, after `add(1, 10)` the only node is `head_` and `tail_`; after the
following `get(1)` it is `head_` while `tail_` is null. -/
theorem C14_tail_null_after_get :
    (run 0 (mk_empty 8 : BreadthFixedMap Nat Nat) [Call.add 1 10]).map
        (fun s => (s.head_, s.tail_)) = some (some 0, some 0) ∧
    (run 0 (mk_empty 8 : BreadthFixedMap Nat Nat) [Call.add 1 10, Call.get 1]).map
        (fun s => (s.head_, s.tail_)) = some (some 0, none) := by
  decide

/-- Claim C15 (node membership) evaluated on the code: with capacity 1, after
`add(1, 10)`, `get(1)`, `add(2, 20)`, `add(3, 30)` two nodes are allocated; the
chain from `head_` is node 1 and the chain from `buffer_` is node 1 as well, so
node 1 is in both chains and node 0 in neither. -/
theorem C15_node_in_both_chains :
    (run 2 (mk_empty 1 : BreadthFixedMap Nat Nat)
        [Call.add 1 10, Call.get 1, Call.add 2 20, Call.add 3 30]).map
      (fun s => (s.store.length, walk s.store 2 s.head_, walk s.store 2 s.buffer_))
      = some (2, some [1], some [1]) := by
  decide

/-- Claim C16 (detach only list members) evaluated on the code: with capacity
1, in the state reached by `add(1, 10)`, `get(1)`, `add(2, 20)`, the eviction
loop of `add(3, 30)` calls `remove(tail_)` twice.  The first time `tail_` is
node 1 and the recency list is 1, 0.  The second time `tail_` is still node 1,
which is then the free chain, while the recency list is node 0 alone: this
second `pick_up_node` receives a node of the free pool. -/
theorem C16_detach_of_free_node :
    (run 0 (mk_empty 1 : BreadthFixedMap Nat Nat)
        [Call.add 1 10, Call.get 1, Call.add 2 20]).map
      (fun s => (find s 3, (evict_trace 2 s).map (fun tr => tr.map (fun t =>
        (t.tail_, walk t.store 2 t.head_, walk t.store 2 t.buffer_)))))
      = some (false, some [(some 1, some [1, 0], some []), (some 1, some [0], some [1])]) := by
  rfl

/-- Claim C19 (the eviction loop terminates): for every capacity `cap >= 1`
and every state `s` reached by public calls from a freshly
constructed map, the loop of line 269 ends within `length_ - cap + 1`
iterations (none when `length_ < cap`); every iteration starts with
`length_ >= 1`, so `--length_` never wraps, and `length_` goes down by exactly
the number of iterations. -/
theorem C19_evict_loop_terminates (cap fuel : Nat) (cs : List (Call K V))
    (s : BreadthFixedMap K V) (hcap : 1 ≤ cap)
    (hr : run fuel (mk_empty cap) cs = some s) :
    ∃ tr s1, evict_trace (evict_bound s) s = some tr ∧
      evict_loop (evict_bound s) s = some s1 ∧
      tr.length ≤ evict_bound s ∧
      (s.length_ < cap → tr.length = 0) ∧
      (∀ t, t ∈ tr → 1 ≤ t.length_) ∧
      s1.length_ + tr.length = s.length_ := by
  obtain ⟨hm, hl⟩ := run_counters cs hr (show (mk_empty cap : BreadthFixedMap K V).length_
    < SIZE_MOD from size_mod_pos)
  have hm1 : s.MAX_ = cap := hm
  have hb : s.length_ < s.MAX_ + evict_bound s := by
    unfold evict_bound
    split <;> omega
  obtain ⟨tr, s1, h1, h2, h3, h4, h5⟩ := evict_within (evict_bound s) s (by omega) hl hb
  refine ⟨tr, s1, h1, h2, h3, ?_, h4, h5⟩
  intro hlt
  have : evict_bound s = 0 := by
    unfold evict_bound
    rw [hm1]
    simp [hlt]
  omega

/-- Claim C18 (read your write) evaluated on the code: with capacity 0, the
calls `add(1, 10)`, `get(1)`, `add(2, 20)`, `add(3, 30)`, `remove(1)`,
`remove(3)` reach a state in which key 4 is absent and `add(4, 40)` never
returns, however many iterations the eviction loop is given. -/
theorem C18_add_never_returns :
    run 2 (mk_empty 0 : BreadthFixedMap Nat Nat)
        [Call.add 1 10, Call.get 1, Call.add 2 20, Call.add 3 30, Call.remove 1,
         Call.remove 3] = some (stuck_even 18446744073709551615) ∧
    find (stuck_even 18446744073709551615) 4 = false ∧
    ∀ fuel, add fuel (stuck_even 18446744073709551615) 4 40 = none := by
  refine ⟨by decide, by decide, ?_⟩
  intro fuel
  unfold add
  have h : table_find (stuck_even 18446744073709551615).table_ 4 = none := rfl
  rw [h]
  simp only [(evict_loop_stuck fuel _).1]

/-- Witness of `C19_evict_loop_terminates`: capacity 2 holding keys 1 and 2. -/
theorem C19_evict_loop_terminates_witness :
    (1 ≤ 2 ∧ run 1 (mk_empty 2 : BreadthFixedMap Nat Nat) [Call.add 1 10, Call.add 2 20]
        = some example_full) ∧
    ∃ tr s1, evict_trace (evict_bound example_full) example_full = some tr ∧
      evict_loop (evict_bound example_full) example_full = some s1 ∧
      tr.length ≤ evict_bound example_full ∧
      (example_full.length_ < 2 → tr.length = 0) ∧
      (∀ t, t ∈ tr → 1 ≤ t.length_) ∧
      s1.length_ + tr.length = example_full.length_ :=
  ⟨⟨by decide, by decide⟩,
    C19_evict_loop_terminates 2 1 [Call.add 1 10, Call.add 2 20] example_full
      (by decide) (by decide)⟩

/-- Claim C17 (detach correctness): if `head_`, `tail_` and the links describe
the doubly linked list `l` of distinct nodes (`head_` its first node, `tail_`
its last, `previous_` and `next_` consistent) and `node` is a member of `l`,
at the head, the tail or in the middle, then after `pick_up_node(node)` they
describe `l` without `node`, the other nodes in their original order, with
`head_` and `tail_` its new first and last node (both null when `l` was
`[node]`), and both links of `node` are null. -/
theorem C17_detach_correct (s : BreadthFixedMap K V) (l : List Nat) (node : Nat)
    (hs : Seg s.store none l none) (hh : s.head_ = l.head?) (ht : s.tail_ = l.getLast?)
    (hnd : l.Nodup) (hm : node ∈ l) :
    Seg (pick_up_node s node).store none (l.erase node) none ∧
    (pick_up_node s node).head_ = (l.erase node).head? ∧
    (pick_up_node s node).tail_ = (l.erase node).getLast? ∧
    (l = [node] → (pick_up_node s node).head_ = none ∧ (pick_up_node s node).tail_ = none) ∧
    previous_of (pick_up_node s node).store node = none ∧
    next_of (pick_up_node s node).store node = none := by
  obtain ⟨l1, l2, rfl⟩ := mem_split hm
  have hn1 : node ∉ l1 := fun e =>
    (List.nodup_append.mp hnd).2.2 e (List.mem_cons_self _ _)
  rw [← first_or_eq_head] at hh
  rw [← last_or_eq_getLast] at ht
  obtain ⟨a1, a2, a3, a4, a5, _⟩ := pick_up_node_spec hs hh ht hnd
  rw [erase_middle hn1, ← first_or_eq_head, ← last_or_eq_getLast]
  refine ⟨a1, a2, a3, ?_, a4, a5⟩
  intro h1
  have hlen : (l1 ++ node :: l2).length = 1 := by rw [h1]; rfl
  have hnil : l1 ++ l2 = [] := by
    apply List.eq_nil_of_length_eq_zero
    simp only [List.length_append, List.length_cons] at hlen ⊢
    omega
  rw [a2, a3, hnil]
  exact ⟨rfl, rfl⟩

/-- Witness of `C17_detach_correct`: the middle node 1 of the list 2, 1, 0 of
`example_three`. -/
theorem C17_detach_correct_witness :
    (Seg example_three.store none [2, 1, 0] none ∧
      example_three.head_ = [2, 1, 0].head? ∧ example_three.tail_ = [2, 1, 0].getLast? ∧
      [2, 1, 0].Nodup ∧ 1 ∈ [2, 1, 0]) ∧
    (Seg (pick_up_node example_three 1).store none ([2, 1, 0].erase 1) none ∧
      (pick_up_node example_three 1).head_ = ([2, 1, 0].erase 1).head? ∧
      (pick_up_node example_three 1).tail_ = ([2, 1, 0].erase 1).getLast? ∧
      ([2, 1, 0] = [1] → (pick_up_node example_three 1).head_ = none ∧
        (pick_up_node example_three 1).tail_ = none) ∧
      previous_of (pick_up_node example_three 1).store 1 = none ∧
      next_of (pick_up_node example_three 1).store 1 = none) :=
  ⟨⟨⟨by decide, rfl, rfl, by decide, rfl, rfl, by decide, rfl, rfl, trivial⟩,
      rfl, rfl, by decide, by decide⟩,
    C17_detach_correct example_three [2, 1, 0] 1
      ⟨by decide, rfl, rfl, by decide, rfl, rfl, by decide, rfl, rfl, trivial⟩
      rfl rfl (by decide) (by decide)⟩

/-- Claim C20 (node acquisition): `new_node(key, value)` called with a
non-empty free pool (`buffer_` the address `b` of a node) returns `b` with `key`
and `value` written and both links null, allocates no node, makes `b->next_`
the new `buffer_`, and adds one to `length_` (modulo `2 ^ 64`); when the pool
is the chain `b, f1` of distinct nodes, the rest `f1` is afterwards the whole
pool, well linked and with keys and values untouched.  A node is allocated
exactly when the pool is empty, and it is then the node returned. -/
theorem C20_new_node_recycles (s : BreadthFixedMap K V) (key : K) (value : V) :
    (∀ b, s.buffer_ = some b → b < s.store.length →
      (new_node s key value).1 = b ∧
      (new_node s key value).2.store.length = s.store.length ∧
      key_of (new_node s key value).2.store b = some key ∧
      value_of (new_node s key value).2.store b = some value ∧
      previous_of (new_node s key value).2.store b = none ∧
      next_of (new_node s key value).2.store b = none ∧
      (new_node s key value).2.buffer_ = next_of s.store b ∧
      (new_node s key value).2.length_ = (s.length_ + 1) % SIZE_MOD ∧
      (s.length_ + 1 < SIZE_MOD → (new_node s key value).2.length_ = s.length_ + 1) ∧
      ∀ f1, Seg s.store none (b :: f1) none → (b :: f1).Nodup →
        Seg (new_node s key value).2.store none f1 none ∧
        (new_node s key value).2.buffer_ = f1.head? ∧
        ∀ q, q ∈ f1 →
          key_of (new_node s key value).2.store q = key_of s.store q ∧
          value_of (new_node s key value).2.store q = value_of s.store q) ∧
    ((new_node s key value).2.store.length = s.store.length + 1 ↔ s.buffer_ = none) ∧
    (s.buffer_ = none → (new_node s key value).1 = s.store.length) := by
  refine ⟨?_, ?_, ?_⟩
  · intro b hb hbv
    obtain ⟨_, n2, n3, n4, n5⟩ := new_node_self s key value
      (fun b1 hb1 => by rw [hb] at hb1; cases hb1; exact hbv)
    obtain ⟨c1, _⟩ := new_node_counters s key value
    obtain ⟨hfst, hlen, hbuf⟩ := new_node_of_some hb key value
    rw [hfst] at n2 n3 n4 n5
    refine ⟨hfst, hlen, n2, n3, n4, n5, hbuf, c1, ?_, ?_⟩
    · intro hlt
      rw [c1, Nat.mod_eq_of_lt hlt]
    · intro f1 hseg hnd
      have hx : next_of s.store b = first_or f1 none := hseg.2.2.1
      have hbf : b ∉ f1 := (List.nodup_cons.mp hnd).1
      refine ⟨?_, ?_, ?_⟩
      · -- the links of the rest are those of the old chain, but for the new first node
        cases f1 with
        | nil => trivial
        | cons b1 r =>
          have hx1 : next_of s.store b = some b1 := hx
          rw [new_node_some_some hb hx1]
          have hb1r : b1 ∉ r := (List.nodup_cons.mp (List.nodup_cons.mp hnd).2).1
          exact Seg_set_previous_frame (Seg_set_next_frame
            (Seg_write_key (Seg_set_previous_first hseg.2.2.2 hb1r _) _ _ _) hbf _) hbf _
      · rw [hbuf, hx, first_or_eq_head]
      · intro q hq
        have hqb : q ≠ b := fun e => hbf (e ▸ hq)
        have hql : q < s.store.length := Seg_lt _ _ _ hseg q (List.mem_cons_of_mem _ hq)
        exact new_node_other s key value hql (by rw [hfst]; exact hqb)
  · constructor
    · intro h
      cases hb : s.buffer_ with
      | none => rfl
      | some b =>
        have := (new_node_of_some hb key value).2.1
        omega
    · intro hb
      exact (new_node_of_none hb key value).2
  · intro hb
    exact (new_node_of_none hb key value).1

/-- Witness of `C20_new_node_recycles`: the free chain 1, 0 of `example_pool`. -/
theorem C20_new_node_recycles_witness :
    (example_pool.buffer_ = some 1 ∧ 1 < example_pool.store.length ∧
      Seg example_pool.store none [1, 0] none ∧ [1, 0].Nodup) ∧
    ((new_node example_pool 5 50).1 = 1 ∧
      (new_node example_pool 5 50).2.store.length = example_pool.store.length ∧
      key_of (new_node example_pool 5 50).2.store 1 = some 5 ∧
      value_of (new_node example_pool 5 50).2.store 1 = some 50 ∧
      (new_node example_pool 5 50).2.buffer_ = some 0 ∧
      Seg (new_node example_pool 5 50).2.store none [0] none) :=
  have h := (C20_new_node_recycles example_pool 5 50).1 1 rfl (by decide)
  ⟨⟨rfl, by decide, ⟨by decide, rfl, rfl, by decide, rfl, rfl, trivial⟩, by decide⟩,
    h.1, h.2.1, h.2.2.1, h.2.2.2.1, h.2.2.2.2.2.2.1,
    (h.2.2.2.2.2.2.2.2.2 [0] ⟨by decide, rfl, rfl, by decide, rfl, rfl, trivial⟩
      (by decide)).1⟩

/-- Claim C11 (sequential fill keeps exactly the newest keys): for every capacity
`cap` with `1 <= cap < 2 ^ 64` and every list `kvs` of pairs with pairwise
distinct keys, adding the pairs in that order to an empty map returns (one loop
iteration per `add` is enough) a map `s` with `size() = min(n, cap)`, where `n`
is the number of pairs; `find(k_i)` is false for `i < n - cap` and true for
`i >= n - cap`; and querying the present keys `k_(n - cap)`, ..., `k_(n - 1)` with
`get` in that order returns `v_(n - cap)`, ..., `v_(n - 1)`. -/
theorem C11_sequential_fill (cap fuel : Nat) (kvs : List (K × V)) (hcap : 1 ≤ cap)
    (hlt : cap < SIZE_MOD) (hfuel : 1 ≤ fuel) (hnd : (kvs.map Prod.fst).Nodup) :
    ∃ s, run fuel (mk_empty cap) (kvs.map (fun e => Call.add e.1 e.2)) = some s ∧
      size s = min kvs.length cap ∧
      (∀ i e, kvs[i]? = some e → i < kvs.length - cap → find s e.1 = false) ∧
      (∀ i e, kvs[i]? = some e → kvs.length - cap ≤ i → find s e.1 = true) ∧
      (get_all s ((kvs.drop (kvs.length - cap)).map Prod.fst)).map Prod.fst
        = some ((kvs.drop (kvs.length - cap)).map Prod.snd) := by
  have hw0 : WF (mk_empty cap : BreadthFixedMap K V) [] [] := WF_mk_empty hlt
  have hh0 : Holds (mk_empty cap : BreadthFixedMap K V).store [] [] := rfl
  obtain ⟨s, l, f, hr, hw, hh, _⟩ :=
    fill_spec hfuel kvs hw0 hh0 hcap (Nat.zero_le _) (by simpa using hnd)
  have hm : (mk_empty cap : BreadthFixedMap K V).MAX_ = cap := rfl
  rw [hm, List.append_nil, List.take_reverse] at hh
  have hmem : ∀ e, e ∈ kvs.drop (kvs.length - cap) → ∃ p, p ∈ l ∧ entry_of s.store p = some e :=
    fun e he => Holds_mem_of_entry hh (List.mem_reverse.mpr he)
  refine ⟨s, hr, ?_, ?_, ?_, ?_⟩
  · unfold size
    rw [hw.length, Holds_length hh, List.length_reverse, List.length_drop]
    omega
  · intro i e hi hlt2
    cases hf : find s e.1 with
    | false => rfl
    | true =>
      obtain ⟨v, hv⟩ := (find_iff_of_Holds hw hh e.1).mp hf
      obtain ⟨j, hj, hje⟩ := (mem_drop_iff kvs _ _).mp (List.mem_reverse.mp hv)
      have := key_index_unique kvs hnd hi hje rfl
      omega
  · intro i e hi hge
    refine (find_iff_of_Holds hw hh e.1).mpr ⟨e.2, ?_⟩
    exact List.mem_reverse.mpr ((mem_drop_iff kvs _ _).mpr ⟨i, hge, hi⟩)
  · exact get_all_spec _ hw hmem (((List.drop_sublist _ _).map _).nodup hnd)

/-- Witness of `C11_sequential_fill`: the fill phase of the driver, capacity 8
and keys 0..15 with values equal to the keys. -/
theorem C11_sequential_fill_witness :
    (1 ≤ 8 ∧ 8 < SIZE_MOD ∧ 1 ≤ 1 ∧
      (((List.range 16).map (fun i => (i, i))).map Prod.fst).Nodup) ∧
    ∃ s : BreadthFixedMap Nat Nat,
      run 1 (mk_empty 8)
        (((List.range 16).map (fun i => (i, i))).map (fun e => Call.add e.1 e.2)) = some s ∧
      size s = min ((List.range 16).map (fun i => (i, i))).length 8 ∧
      (∀ i e, ((List.range 16).map (fun i => (i, i)))[i]? = some e →
        i < ((List.range 16).map (fun i => (i, i))).length - 8 → find s e.1 = false) ∧
      (∀ i e, ((List.range 16).map (fun i => (i, i)))[i]? = some e →
        ((List.range 16).map (fun i => (i, i))).length - 8 ≤ i → find s e.1 = true) ∧
      (get_all s ((((List.range 16).map (fun i => (i, i))).drop
          (((List.range 16).map (fun i => (i, i))).length - 8)).map Prod.fst)).map Prod.fst
        = some ((((List.range 16).map (fun i => (i, i))).drop
          (((List.range 16).map (fun i => (i, i))).length - 8)).map Prod.snd) :=
  ⟨⟨by decide, by decide, by decide, by decide⟩,
    C11_sequential_fill 8 1 ((List.range 16).map (fun i => (i, i)))
      (by decide) (by decide) (by decide) (by decide)⟩

end BreadthFixedMap

end ys
